import Mathlib

/-!
# Negative cache with base-11 pattern encoding (`main.go`)

A shallow embedding of the Go program: the pattern encoder `Cache.Encode`, the
presence cache (`NewCache`, `Cache.Set`, `Cache.Exists`, `Cache.Clear`,
`Cache.Free`, `Cache.FreeLargeMap`) and the properties of the specification
that are checked against them.

Modelling conventions
* A Go `string` is a finite sequence of bytes (`GoString`).
* `rune` and `int32` values are integers; `int32` arithmetic is wrapped
  explicitly with `wrapInt32`.
* A Go result pair `(v, err)` is a Lean pair whose second component is an
  `Option` (`none` is the `nil` error).
* A call that can raise a runtime panic returns an `Outcome`.
* `map[int32]struct{}` is a finite set of keys; the `nil` map is `none`.
* The operations on `Cache` are the sequential bodies that run under the lock;
  `Guarded` adds the state of the mutex for the calls whose termination
  depends on it.
* A sequence of calls is a list of `Op`; `Cache.run` performs them in order.
* The Go runtime seen by `FreeLargeMap` (heap statistics and the clock) is data
  of type `Runtime`; the polling loop takes a bound on its iterations.
-/

namespace NegCache

/-! ## Constants (`main.go`, lines 11-15) -/

/-- Alphabet size. -/
def Base : Int := 11

/-- Pattern length in symbols. -/
def NumDigits : Nat := 6

/-- Size of the key space, the literal `1771561` of the source. -/
def MaxCombInt : Int := 1771561

/-! ## Go strings and the conversion `[]rune(s)` -/

/-- A Go string: a sequence of bytes. -/
abbrev GoString := List (Fin 256)

/-- The replacement rune `U+FFFD` produced for malformed UTF-8. -/
def RuneError : Int := 0xFFFD

/-- Decode the first rune of a byte sequence, with its width in bytes, as the Go
language does when it ranges over a string: a malformed or truncated sequence
yields `RuneError` with width 1. -/
def decodeRune : GoString → Int × Nat
  | [] => (RuneError, 0)
  | b0 :: rest =>
    let s0 := b0.val
    if s0 < 0x80 then ((s0 : Int), 1)
    else if s0 < 0xC2 then (RuneError, 1)
    else if s0 < 0xE0 then
      match rest with
      | b1 :: _ =>
        if 0x80 ≤ b1.val ∧ b1.val ≤ 0xBF then
          (((s0 % 32 * 64 + b1.val % 64 : Nat) : Int), 2)
        else (RuneError, 1)
      | [] => (RuneError, 1)
    else if s0 < 0xF0 then
      let lo := if s0 = 0xE0 then 0xA0 else 0x80
      let hi := if s0 = 0xED then 0x9F else 0xBF
      match rest with
      | b1 :: b2 :: _ =>
        if lo ≤ b1.val ∧ b1.val ≤ hi ∧ 0x80 ≤ b2.val ∧ b2.val ≤ 0xBF then
          (((s0 % 16 * 4096 + b1.val % 64 * 64 + b2.val % 64 : Nat) : Int), 3)
        else (RuneError, 1)
      | _ => (RuneError, 1)
    else if s0 < 0xF5 then
      let lo := if s0 = 0xF0 then 0x90 else 0x80
      let hi := if s0 = 0xF4 then 0x8F else 0xBF
      match rest with
      | b1 :: b2 :: b3 :: _ =>
        if lo ≤ b1.val ∧ b1.val ≤ hi ∧ 0x80 ≤ b2.val ∧ b2.val ≤ 0xBF
            ∧ 0x80 ≤ b3.val ∧ b3.val ≤ 0xBF then
          (((s0 % 8 * 262144 + b1.val % 64 * 4096 + b2.val % 64 * 64 + b3.val % 64 : Nat) : Int), 4)
        else (RuneError, 1)
      | _ => (RuneError, 1)
    else (RuneError, 1)

/-- The loop behind `[]rune(s)`: decode one rune, skip its bytes, repeat.  The
first argument bounds the number of iterations. -/
def toRunesAux : Nat → GoString → List Int
  | 0, _ => []
  | _, [] => []
  | fuel + 1, b :: bs =>
    (decodeRune (b :: bs)).1 :: toRunesAux fuel ((b :: bs).drop (decodeRune (b :: bs)).2)

/-- The conversion `[]rune(s)` (`main.go`, line 59).  Every iteration consumes at
least one byte, so `s.length` iterations always reach the end of the string. -/
def toRunes (s : GoString) : List Int := toRunesAux s.length s

/-! ## The encoder (`main.go`, lines 36-77) -/

/-- Two's-complement wrap-around of an integer into the `int32` range. -/
def wrapInt32 (x : Int) : Int := (x + 2147483648) % 4294967296 - 2147483648

/-- The dash-like runes accepted as the wildcard: `isDashRune` of the source. -/
def isDashRune (r : Int) : Bool :=
  if r = 0x2D then true          -- '-'  HYPHEN-MINUS
  else if r = 0x2013 then true   -- EN DASH
  else if r = 0x2014 then true   -- EM DASH
  else if r = 0x2212 then true   -- MINUS SIGN
  else if r = 0x2012 then true   -- FIGURE DASH
  else if r = 0x2010 then true   -- HYPHEN
  else if r = 0x2011 then true   -- NON-BREAKING HYPHEN
  else false

/-- The errors built by `Encode` with `fmt.Errorf`: `invalidLength` is
"pattern must be exactly 6 characters", `invalidCharacter r` is
"invalid character %q in pattern" formatted with the rune `r`. -/
inductive EncodeError where
  | invalidLength
  | invalidCharacter (r : Int)
  deriving DecidableEq, Repr

/-- The `for _, r := range rs` loop of `Encode` (lines 64-76), started with the
accumulator `key`: it returns `(0, err)` at the first rune that is neither a digit
nor a dash, and `(key, nil)` after the last rune. -/
def encodeLoop : List Int → Int → Int × Option EncodeError
  | [], key => (key, none)
  | r :: rs, key =>
    if 48 ≤ r ∧ r ≤ 57 then
      encodeLoop rs (wrapInt32 (wrapInt32 (key * Base) + wrapInt32 (r - 48)))
    else if isDashRune r then
      encodeLoop rs (wrapInt32 (wrapInt32 (key * Base) + 10))
    else (0, some (EncodeError.invalidCharacter r))

/-- `Encode` on the rune slice `rs`: the length check of lines 60-62, then the
loop. -/
def encodeRunes (rs : List Int) : Int × Option EncodeError :=
  if rs.length ≠ NumDigits then (0, some EncodeError.invalidLength)
  else encodeLoop rs 0

/-! ## The cache (`main.go`, lines 17-151) -/

/-- The struct `Cache` without its mutex: `data` is the key set (`none` is the
`nil` map) and `capacity` the recorded capacity. -/
structure Cache where
  data : Option (Finset Int)
  capacity : Int
  deriving DecidableEq

/-- The result of a call that may raise a Go runtime panic. -/
inductive Outcome (α : Type) where
  | returned (a : α)
  | panicked (msg : String)
  deriving DecidableEq

/-- `NewCache`: an allocated, empty map; a non-positive capacity is replaced by
`MaxCombInt`. -/
def NewCache (capacity : Int) : Cache :=
  let capacity := if capacity ≤ 0 then MaxCombInt else capacity
  { data := some ∅, capacity := capacity }

/-- `Cache.Encode` (lines 57-77); the receiver is not used by the body. -/
def Cache.Encode (_c : Cache) (pattern : GoString) : Int × Option EncodeError :=
  encodeRunes (toRunes pattern)

/-- `Cache.Set` (lines 80-89): on an encoding error the error is returned and the
cache is untouched; otherwise the key is written into the map, which panics
when the map is `nil`. -/
def Cache.Set (c : Cache) (pattern : GoString) : Outcome (Cache × Option EncodeError) :=
  match c.Encode pattern with
  | (_, some err) => Outcome.returned (c, some err)
  | (key, none) =>
    match c.data with
    | none => Outcome.panicked "assignment to entry in nil map"
    | some m => Outcome.returned ({ c with data := some (insert key m) }, none)

/-- `Cache.Exists` (lines 92-101): a lookup in the map; reading a `nil` map finds
nothing. -/
def Cache.Exists (c : Cache) (pattern : GoString) : Bool × Option EncodeError :=
  match c.Encode pattern with
  | (_, some err) => (false, some err)
  | (key, none) =>
    match c.data with
    | none => (false, none)
    | some m => (decide (key ∈ m), none)

/-- `Cache.Clear` (lines 105-109): `clear(c.data)` empties the map and is a no-op
on a `nil` map. -/
def Cache.Clear (c : Cache) : Cache :=
  { c with data := c.data.map (fun _ => ∅) }

/-- `Cache.Free` (lines 112-116): the map reference becomes `nil`. -/
def Cache.Free (c : Cache) : Cache :=
  { c with data := none }

/-- What the Go runtime shows to `FreeLargeMap`: `heapBefore` is the `HeapReleased`
baseline read at line 131, `start` the clock reading of line 136 in nanoseconds,
`heapAt i` the `HeapReleased` value read by the `i`-th iteration of the polling
loop, and `lag i` the time in nanoseconds that the `i`-th iteration takes on top
of the 50 ms it sleeps. -/
structure Runtime where
  heapBefore : Nat
  start : Int
  heapAt : Nat → Nat
  lag : Nat → Nat

/-- How the polling loop of `FreeLargeMap` ends: `released` is the `nil` return of
line 143, `timeout before cur` the error of lines 146-147, and `polling` says
that the loop is still running after the iterations that were granted. -/
inductive PollResult where
  | released
  | timeout (before cur : Nat)
  | polling
  deriving DecidableEq, Repr

/-- The `for` loop of `FreeLargeMap` (lines 137-150) from its `i`-th iteration on,
entered at clock reading `now`, for at most as many iterations as the first
argument says. `time.Sleep` advances the clock by 50 ms. -/
def pollLoop (rt : Runtime) (deadline : Int) : Nat → Nat → Int → PollResult
  | 0, _, _ => PollResult.polling
  | fuel + 1, i, now =>
    if rt.heapAt i > rt.heapBefore then PollResult.released
    else if now + rt.lag i > deadline then PollResult.timeout rt.heapBefore (rt.heapAt i)
    else pollLoop rt deadline fuel (i + 1) (now + rt.lag i + 50000000)

/-- `Cache.FreeLargeMap` (lines 122-151) once `c.mu.Lock()` of line 124 has been
granted: the map reference becomes `nil`, then the runtime is polled until
`HeapReleased` has grown or the deadline has passed. The wait for the lock is
part of `Guarded.FreeLargeMap`. -/
def Cache.FreeLargeMap (c : Cache) (timeout : Int) (rt : Runtime) (fuel : Nat) :
    Cache × PollResult :=
  ({ c with data := none }, pollLoop rt (rt.start + timeout) fuel 0 rt.start)

/-- Consecutive `Set` calls whose returned errors are dropped, as in the refill
loop of `main` (lines 186-190). -/
def Cache.SetAll : Cache → List GoString → Outcome Cache
  | c, [] => Outcome.returned c
  | c, p :: ps =>
    match c.Set p with
    | Outcome.returned (c', _) => Cache.SetAll c' ps
    | Outcome.panicked msg => Outcome.panicked msg

/-- The set of keys present in the map, as a `range` over `c.data` visits them; a
`nil` map holds none. -/
def Cache.keys (c : Cache) : Finset Int := c.data.getD ∅

/-- The logical size `len(c.data)`: the number of present keys. -/
def Cache.size (c : Cache) : Nat := c.keys.card

/-- A call on the cache: `set p` is `Set(p)`, `query p` is `Exists(p)` and `clear`
is `Clear()`. -/
inductive Op where
  | set (pattern : GoString)
  | query (pattern : GoString)
  | clear
  deriving DecidableEq

/-- What a call returns to its caller: the error of `Set`, the pair of `Exists`,
nothing for `Clear`. -/
inductive Reply where
  | set (err : Option EncodeError)
  | query (found : Bool) (err : Option EncodeError)
  | clear
  deriving DecidableEq

/-- One call on the cache: the cache after the call and what the call returned.
`Exists` only reads `c.data` under the read lock, so it hands back the cache it
was given. -/
def Cache.step (c : Cache) : Op → Outcome (Cache × Reply)
  | Op.set p =>
    match c.Set p with
    | Outcome.returned (c', err) => Outcome.returned (c', Reply.set err)
    | Outcome.panicked msg => Outcome.panicked msg
  | Op.query p => Outcome.returned (c, Reply.query (c.Exists p).1 (c.Exists p).2)
  | Op.clear => Outcome.returned (c.Clear, Reply.clear)

/-- A sequence of calls, one after the other, with everything they returned. -/
def Cache.run : Cache → List Op → Outcome (Cache × List Reply)
  | c, [] => Outcome.returned (c, [])
  | c, op :: ops =>
    match c.step op with
    | Outcome.returned (c', r) =>
      match Cache.run c' ops with
      | Outcome.returned (c'', rs) => Outcome.returned (c'', r :: rs)
      | Outcome.panicked msg => Outcome.panicked msg
    | Outcome.panicked msg => Outcome.panicked msg

/-- The string `fmt.Sprintf("%06d", i)` for `i ≥ 0`: the decimal digits of `i`, most
significant first, padded with zeros to six digits. -/
def sprintf06d (i : Nat) : GoString :=
  if i < 1000000 then
    [i / 100000 % 10, i / 10000 % 10, i / 1000 % 10, i / 100 % 10, i / 10 % 10, i % 10].map
      (fun d => Fin.ofNat (48 + d))
  else (Nat.toDigits 10 i).map (fun ch => Fin.ofNat ch.toNat)

/-- The patterns that the refill loop of `main` (lines 186-190) sets for
`i = 0, ..., n - 1`. -/
def refill (n : Nat) : List GoString := (List.range n).map sprintf06d

/-- The calls made after the most recent `Clear()` of a sequence of calls, all of
them when there was none. -/
def sinceLastClear : List Op → List Op
  | [] => []
  | op :: ops =>
    if Op.clear ∈ ops then sinceLastClear ops
    else if op = Op.clear then ops
    else op :: ops

/-- The clock reading at which the `i`-th iteration of the polling loop begins: the
loop is entered at `start`, and an iteration that does not return lasts its own
`lag` and the 50 ms of `time.Sleep`. -/
def Runtime.clockAt (rt : Runtime) : Nat → Int
  | 0 => rt.start
  | i + 1 => rt.clockAt i + rt.lag i + 50000000

/-! ## The cache with its mutex -/

/-- The cache together with its mutex `mu`, as a caller sees them between two
calls: `held` says that the write lock is held. Every call releases the lock it
took before it returns, so between calls the lock is held only after a call
that panicked between `Lock` and `Unlock`, and then nobody releases it. -/
structure Guarded where
  cache : Cache
  held : Bool
  deriving DecidableEq

/-- How a call on the guarded cache ends: it returns, it panics (the state is
what a caller that recovers finds), or it waits for the lock for ever. -/
inductive Ending (α : Type) where
  | returned (a : α) (g : Guarded)
  | panicked (msg : String) (g : Guarded)
  | blocked
  deriving DecidableEq

/-- `Cache.Set` with its lock (lines 80-89): an encoding error returns before the
lock is touched; otherwise `c.mu.Lock()` waits for ever on a held lock, and the
write to a `nil` map panics before `c.mu.Unlock()`, which leaves the lock held
since the unlock is not deferred. -/
def Guarded.Set (g : Guarded) (pattern : GoString) : Ending (Option EncodeError) :=
  match g.cache.Encode pattern with
  | (_, some err) => Ending.returned (some err) g
  | (key, none) =>
    if g.held then Ending.blocked
    else
      match g.cache.data with
      | none => Ending.panicked "assignment to entry in nil map" { g with held := true }
      | some m =>
        Ending.returned none
          { cache := { g.cache with data := some (insert key m) }, held := false }

/-- `Cache.Free` with its lock (lines 112-116). -/
def Guarded.Free (g : Guarded) : Ending Unit :=
  if g.held then Ending.blocked
  else Ending.returned () { cache := { g.cache with data := none }, held := false }

/-- `Cache.FreeLargeMap` with its lock (lines 122-151): `c.mu.Lock()` of line 124
waits for ever on a held lock; otherwise the reference is dropped, the lock is
released and the runtime is polled. The result `PollResult.polling` says that
the loop is still running after the iterations that were granted. -/
def Guarded.FreeLargeMap (g : Guarded) (timeout : Int) (rt : Runtime) (fuel : Nat) :
    Ending PollResult :=
  if g.held then Ending.blocked
  else
    Ending.returned (pollLoop rt (rt.start + timeout) fuel 0 rt.start)
      { cache := { g.cache with data := none }, held := false }

/-! ## Notions of the specification -/

/-- The seven wildcard runes listed by the specification: hyphen-minus, en dash,
em dash, minus sign, figure dash, hyphen, non-breaking hyphen. -/
def acceptedDashes : List Int := [0x2D, 0x2013, 0x2014, 0x2212, 0x2012, 0x2010, 0x2011]

/-- A symbol of the valid alphabet: an ASCII decimal digit or an accepted dash. -/
def ValidSymbol (r : Int) : Prop := (48 ≤ r ∧ r ≤ 57) ∨ r ∈ acceptedDashes

instance (r : Int) : Decidable (ValidSymbol r) := by
  unfold ValidSymbol; infer_instance

/-- A valid pattern: exactly six runes, each of the valid alphabet. -/
def ValidPattern (p : GoString) : Prop :=
  (toRunes p).length = 6 ∧ ∀ r ∈ toRunes p, ValidSymbol r

instance (p : GoString) : Decidable (ValidPattern p) := by
  unfold ValidPattern; infer_instance

/-- The radix digit of a symbol as the specification gives it: `'0'..'9'` are
`0..9` and every accepted dash is `10`. -/
def symbolValue (r : Int) : Int :=
  if 48 ≤ r ∧ r ≤ 57 then r - 48 else if r ∈ acceptedDashes then 10 else 0

/-- The left-to-right fold `key = key*11 + value(symbol)` of the specification,
in exact integer arithmetic, started from `key`. -/
def foldKey (rs : List Int) (key : Int) : Int :=
  rs.foldl (fun k r => k * 11 + symbolValue r) key

/-- The normal form of a pattern: every accepted dash variant is replaced by the
canonical wildcard `'-'`. -/
def normalize (rs : List Int) : List Int :=
  rs.map (fun r => if r ∈ acceptedDashes then 45 else r)

/-- The symbol that renders a radix digit: `10` is `'-'`, `0..9` are `'0'..'9'`. -/
def renderDigit (d : Int) : Int := if d = 10 then 45 else 48 + d

/-- The decoder of the specification: the base-11 expansion of the key in six
digits, most significant first, rendered as symbols. -/
def decode (key : Int) : List Int :=
  (List.range 6).map (fun i => renderDigit (key / 11 ^ (5 - i) % 11))

/-- A pattern of exactly six symbols over `'0'..'9'` and the canonical `'-'`. -/
def CanonicalPattern (p : GoString) : Prop :=
  (toRunes p).length = 6 ∧ ∀ r ∈ toRunes p, (48 ≤ r ∧ r ≤ 57) ∨ r = 45

instance (p : GoString) : Decidable (CanonicalPattern p) := by
  unfold CanonicalPattern; infer_instance

/-- The string of ASCII bytes that spells a list of symbols below `U+0080`. -/
def asciiString (rs : List Int) : GoString :=
  rs.map (fun r => Fin.ofNat r.toNat)

/-! ## Sample patterns -/

/-- The string "123456". -/
def pat123456 : GoString := [0x31, 0x32, 0x33, 0x34, 0x35, 0x36]

/-- The string "1-3-56". -/
def pat1d3d56 : GoString := [0x31, 0x2D, 0x33, 0x2D, 0x35, 0x36]

/-- The string "1-3-56" with an en dash (`U+2013`, bytes `E2 80 93`) as its second
symbol. -/
def pat1n3d56 : GoString := [0x31, 0xE2, 0x80, 0x93, 0x33, 0x2D, 0x35, 0x36]

/-- The string "------". -/
def patDashes : GoString := [0x2D, 0x2D, 0x2D, 0x2D, 0x2D, 0x2D]

/-- The string "12345" of 5 symbols. -/
def pat12345 : GoString := [0x31, 0x32, 0x33, 0x34, 0x35]

/-- The string "1234567" of 7 symbols. -/
def pat1234567 : GoString := [0x31, 0x32, 0x33, 0x34, 0x35, 0x36, 0x37]

/-- The string "abcdefg" of 7 letters. -/
def patLetters : GoString := [0x61, 0x62, 0x63, 0x64, 0x65, 0x66, 0x67]

/-- The string "1", en dash, "34": 6 bytes and 4 symbols. -/
def pat1n34 : GoString := [0x31, 0xE2, 0x80, 0x93, 0x33, 0x34]

/-- The string "12345a". -/
def pat12345a : GoString := [0x31, 0x32, 0x33, 0x34, 0x35, 0x61]

/-- The string "12a45b". -/
def pat12a45b : GoString := [0x31, 0x32, 0x61, 0x34, 0x35, 0x62]

/-- The string "000500". -/
def pat000500 : GoString := [0x30, 0x30, 0x30, 0x35, 0x30, 0x30]

/-- The string "999999". -/
def pat999999 : GoString := [0x39, 0x39, 0x39, 0x39, 0x39, 0x39]

/-- The string "0--3-5". -/
def pat0dd3d5 : GoString := [0x30, 0x2D, 0x2D, 0x33, 0x2D, 0x35]

/-! ## Auxiliary lemmas on the encoder -/

theorem wrapInt32_eq_self {x : Int} (h0 : -2147483648 ≤ x) (h1 : x < 2147483648) :
    wrapInt32 x = x := by
  unfold wrapInt32; omega

theorem isDashRune_iff (r : Int) : isDashRune r = true ↔ r ∈ acceptedDashes := by
  unfold isDashRune acceptedDashes
  simp only [List.mem_cons, List.mem_singleton, List.not_mem_nil, or_false]
  constructor
  · intro h
    split_ifs at h <;> simp_all
  · intro h
    rcases h with h | h | h | h | h | h | h <;> subst h <;> decide

theorem symbolValue_range {r : Int} (h : ValidSymbol r) :
    0 ≤ symbolValue r ∧ symbolValue r ≤ 10 := by
  unfold symbolValue
  rcases h with h | h
  · rw [if_pos h]; omega
  · split_ifs <;> omega

theorem foldKey_cons (r : Int) (rs : List Int) (key : Int) :
    foldKey (r :: rs) key = foldKey rs (key * 11 + symbolValue r) := rfl

/-- One iteration of the loop on a valid symbol: when the accumulator leaves room
for one more radix digit inside `int32`, the wrapped update is the exact one. -/
theorem encodeLoop_cons_valid {r : Int} (rs : List Int) {key : Int} (hr : ValidSymbol r)
    (h0 : 0 ≤ key) (h1 : key * 11 + 10 < 2147483648) :
    encodeLoop (r :: rs) key = encodeLoop rs (key * 11 + symbolValue r) := by
  have hk : wrapInt32 (key * Base) = key * 11 := by
    unfold Base; exact wrapInt32_eq_self (by omega) (by omega)
  unfold symbolValue
  rcases hr with hd | hd
  · have hv : wrapInt32 (r - 48) = r - 48 := wrapInt32_eq_self (by omega) (by omega)
    rw [encodeLoop, if_pos hd, if_pos hd, hk, hv, wrapInt32_eq_self (by omega) (by omega)]
  · have hnd : ¬ (48 ≤ r ∧ r ≤ 57) := by
      intro hc
      simp only [acceptedDashes, List.mem_cons, List.mem_singleton, List.not_mem_nil,
        or_false] at hd
      omega
    rw [encodeLoop, if_neg hnd, if_pos ((isDashRune_iff r).2 hd), if_neg hnd, if_pos hd, hk,
      wrapInt32_eq_self (by omega) (by omega)]

/-- The exact fold over valid symbols stays between `key * 11^n` and
`(key + 1) * 11^n - 1`, where `n` is the number of symbols. -/
theorem foldKey_bounds : ∀ (rs : List Int) (key : Int), (∀ r ∈ rs, ValidSymbol r) →
    key * 11 ^ rs.length ≤ foldKey rs key ∧ foldKey rs key < (key + 1) * 11 ^ rs.length
  | [], key, _ => by simp [foldKey]
  | r :: rs, key, h => by
    have hr := symbolValue_range (h r (List.mem_cons_self r rs))
    have ih := foldKey_bounds rs (key * 11 + symbolValue r)
      (fun x hx => h x (List.mem_cons_of_mem r hx))
    have hp : (0 : Int) < 11 ^ rs.length := by positivity
    rw [foldKey_cons, List.length_cons, pow_succ]
    constructor
    · have : key * (11 ^ rs.length * 11) ≤ (key * 11 + symbolValue r) * 11 ^ rs.length := by
        nlinarith [hr.1]
      exact le_trans this ih.1
    · have : (key * 11 + symbolValue r + 1) * 11 ^ rs.length
          ≤ (key + 1) * (11 ^ rs.length * 11) := by
        nlinarith [hr.2]
      exact lt_of_lt_of_le ih.2 this

/-- The `int32` loop agrees with the exact fold as long as the final bound
`(key + 1) * 11^n` fits into `int32`. -/
theorem encodeLoop_eq_foldKey : ∀ (rs : List Int) (key : Int), (∀ r ∈ rs, ValidSymbol r) →
    0 ≤ key → (key + 1) * 11 ^ rs.length ≤ 2147483648 →
    encodeLoop rs key = (foldKey rs key, none)
  | [], key, _, _, _ => by simp [encodeLoop, foldKey]
  | r :: rs, key, h, h0, h1 => by
    have hr := h r (List.mem_cons_self r rs)
    have hv := symbolValue_range hr
    have hp : (1 : Int) ≤ 11 ^ rs.length := one_le_pow₀ (by norm_num)
    rw [List.length_cons, pow_succ] at h1
    have h11 : (key + 1) * 11 ≤ 2147483648 := by nlinarith
    rw [encodeLoop_cons_valid rs hr h0 (by omega), foldKey_cons]
    apply encodeLoop_eq_foldKey rs _ (fun x hx => h x (List.mem_cons_of_mem r hx)) (by omega)
    have : (key * 11 + symbolValue r + 1) * 11 ^ rs.length
        ≤ (key + 1) * (11 ^ rs.length * 11) := by nlinarith [hv.2]
    exact le_trans this h1

theorem encode_eq_foldKey (c : Cache) {p : GoString} (h : ValidPattern p) :
    c.Encode p = (foldKey (toRunes p) 0, none) := by
  unfold Cache.Encode encodeRunes
  rw [if_neg (by rw [h.1]; decide)]
  exact encodeLoop_eq_foldKey _ 0 h.2 le_rfl (by rw [h.1]; norm_num)

theorem list_length_six {α : Type} {l : List α} (h : l.length = 6) :
    ∃ a b c d e f, l = [a, b, c, d, e, f] := by
  match l, h with
  | [a, b, c, d, e, f], _ => exact ⟨a, b, c, d, e, f, rfl⟩

/-- The error of the loop is decided by the leftmost rune outside the valid
alphabet, whatever the accumulator. -/
theorem encodeLoop_error : ∀ (rs : List Int) (key : Int),
    (encodeLoop rs key).2
      = (rs.find? (fun r => decide (¬ ValidSymbol r))).map EncodeError.invalidCharacter
  | [], _ => rfl
  | r :: rs, key => by
    rw [encodeLoop]
    by_cases hd : 48 ≤ r ∧ r ≤ 57
    · have hv : ValidSymbol r := Or.inl hd
      rw [if_pos hd, encodeLoop_error rs, List.find?_cons_of_neg _ (by simpa using hv)]
    · rw [if_neg hd]
      by_cases hdash : isDashRune r = true
      · have hv : ValidSymbol r := Or.inr ((isDashRune_iff r).1 hdash)
        rw [if_pos hdash, encodeLoop_error rs, List.find?_cons_of_neg _ (by simpa using hv)]
      · have hv : ¬ ValidSymbol r := by
          rintro (h | h)
          · exact hd h
          · exact hdash ((isDashRune_iff r).2 h)
        rw [if_neg hdash, List.find?_cons_of_pos _ (by simpa using hv)]
        rfl

/-- A failing loop returns the key `0`. -/
theorem encodeLoop_key_of_error : ∀ (rs : List Int) (key : Int),
    (encodeLoop rs key).2 ≠ none → (encodeLoop rs key).1 = 0
  | [], _, h => absurd rfl h
  | r :: rs, key, h => by
    rw [encodeLoop] at h ⊢
    split_ifs at h ⊢
    · exact encodeLoop_key_of_error rs _ h
    · exact encodeLoop_key_of_error rs _ h
    · rfl

/-! ## Auxiliary lemmas on the decoder of the specification -/

theorem decode_eq (k : Int) : decode k =
    [renderDigit (k / 161051 % 11), renderDigit (k / 14641 % 11), renderDigit (k / 1331 % 11),
     renderDigit (k / 121 % 11), renderDigit (k / 11 % 11), renderDigit (k % 11)] := by
  unfold decode
  norm_num [List.range, List.range.loop]

theorem renderDigit_symbolValue {r : Int} (h : ValidSymbol r) :
    renderDigit (symbolValue r) = if r ∈ acceptedDashes then 45 else r := by
  unfold renderDigit symbolValue
  rcases h with hd | hd
  · have hnd : r ∉ acceptedDashes := by
      simp only [acceptedDashes, List.mem_cons, List.mem_singleton, List.not_mem_nil, or_false]
      omega
    rw [if_pos hd, if_neg hnd, if_neg (by omega)]; omega
  · have hnd : ¬ (48 ≤ r ∧ r ≤ 57) := by
      simp only [acceptedDashes, List.mem_cons, List.mem_singleton, List.not_mem_nil,
        or_false] at hd
      omega
    rw [if_neg hnd, if_pos hd, if_pos hd, if_pos rfl]

theorem base11_digits {v0 v1 v2 v3 v4 v5 : Int} (h0 : 0 ≤ v0 ∧ v0 ≤ 10)
    (h1 : 0 ≤ v1 ∧ v1 ≤ 10) (h2 : 0 ≤ v2 ∧ v2 ≤ 10) (h3 : 0 ≤ v3 ∧ v3 ≤ 10)
    (h4 : 0 ≤ v4 ∧ v4 ≤ 10) (h5 : 0 ≤ v5 ∧ v5 ≤ 10) :
    ((((((0 * 11 + v0) * 11 + v1) * 11 + v2) * 11 + v3) * 11 + v4) * 11 + v5) / 161051 % 11 = v0
    ∧ ((((((0 * 11 + v0) * 11 + v1) * 11 + v2) * 11 + v3) * 11 + v4) * 11 + v5) / 14641 % 11 = v1
    ∧ ((((((0 * 11 + v0) * 11 + v1) * 11 + v2) * 11 + v3) * 11 + v4) * 11 + v5) / 1331 % 11 = v2
    ∧ ((((((0 * 11 + v0) * 11 + v1) * 11 + v2) * 11 + v3) * 11 + v4) * 11 + v5) / 121 % 11 = v3
    ∧ ((((((0 * 11 + v0) * 11 + v1) * 11 + v2) * 11 + v3) * 11 + v4) * 11 + v5) / 11 % 11 = v4
    ∧ ((((((0 * 11 + v0) * 11 + v1) * 11 + v2) * 11 + v3) * 11 + v4) * 11 + v5) % 11 = v5 := by
  refine ⟨?_, ?_, ?_, ?_, ?_, ?_⟩ <;> omega

theorem decode_foldKey {rs : List Int} (hl : rs.length = 6) (hv : ∀ r ∈ rs, ValidSymbol r) :
    decode (foldKey rs 0) = normalize rs := by
  obtain ⟨r0, r1, r2, r3, r4, r5, rfl⟩ := list_length_six hl
  have h0 := symbolValue_range (hv r0 (by simp))
  have h1 := symbolValue_range (hv r1 (by simp))
  have h2 := symbolValue_range (hv r2 (by simp))
  have h3 := symbolValue_range (hv r3 (by simp))
  have h4 := symbolValue_range (hv r4 (by simp))
  have h5 := symbolValue_range (hv r5 (by simp))
  have e0 := renderDigit_symbolValue (hv r0 (by simp))
  have e1 := renderDigit_symbolValue (hv r1 (by simp))
  have e2 := renderDigit_symbolValue (hv r2 (by simp))
  have e3 := renderDigit_symbolValue (hv r3 (by simp))
  have e4 := renderDigit_symbolValue (hv r4 (by simp))
  have e5 := renderDigit_symbolValue (hv r5 (by simp))
  simp only [foldKey, List.foldl_cons, List.foldl_nil, decode_eq, normalize, List.map_cons,
    List.map_nil]
  rw [← e0, ← e1, ← e2, ← e3, ← e4, ← e5]
  generalize symbolValue r0 = v0 at *
  generalize symbolValue r1 = v1 at *
  generalize symbolValue r2 = v2 at *
  generalize symbolValue r3 = v3 at *
  generalize symbolValue r4 = v4 at *
  generalize symbolValue r5 = v5 at *
  obtain ⟨d0, d1, d2, d3, d4, d5⟩ := base11_digits h0 h1 h2 h3 h4 h5
  rw [d0, d1, d2, d3, d4, d5]

theorem symbolValue_normalize (r : Int) :
    symbolValue (if r ∈ acceptedDashes then 45 else r) = symbolValue r := by
  by_cases h : r ∈ acceptedDashes
  · rw [if_pos h]
    have hnd : ¬ (48 ≤ r ∧ r ≤ 57) := by
      simp only [acceptedDashes, List.mem_cons, List.mem_singleton, List.not_mem_nil,
        or_false] at h
      omega
    unfold symbolValue
    rw [if_neg hnd, if_pos h]; decide
  · rw [if_neg h]

theorem foldKey_normalize : ∀ (rs : List Int) (key : Int),
    foldKey (normalize rs) key = foldKey rs key
  | [], _ => rfl
  | r :: rs, key => by
    show foldKey (normalize rs) (key * 11 + symbolValue (if r ∈ acceptedDashes then 45 else r)) = _
    rw [symbolValue_normalize, foldKey_normalize rs, foldKey_cons]

theorem foldKey_eq_of_normalize {rs ts : List Int} (h : normalize rs = normalize ts) :
    foldKey rs 0 = foldKey ts 0 := by
  rw [← foldKey_normalize rs, ← foldKey_normalize ts, h]

theorem renderDigit_range {d : Int} (h0 : 0 ≤ d) (h1 : d ≤ 10) :
    ((48 ≤ renderDigit d ∧ renderDigit d ≤ 57) ∨ renderDigit d = 45)
    ∧ symbolValue (renderDigit d) = d := by
  unfold renderDigit
  by_cases h : d = 10
  · subst h; exact ⟨Or.inr rfl, by decide⟩
  · rw [if_neg h]
    refine ⟨Or.inl ⟨by omega, by omega⟩, ?_⟩
    unfold symbolValue
    rw [if_pos ⟨by omega, by omega⟩]
    omega

theorem decode_canonical (k : Int) :
    (decode k).length = 6 ∧ ∀ r ∈ decode k, (48 ≤ r ∧ r ≤ 57) ∨ r = 45 := by
  rw [decode_eq]
  refine ⟨rfl, ?_⟩
  intro r hr
  simp only [List.mem_cons, List.mem_singleton, List.not_mem_nil, or_false] at hr
  rcases hr with h | h | h | h | h | h <;> subst h <;>
    exact (renderDigit_range (Int.emod_nonneg _ (by norm_num))
      (Int.lt_add_one_iff.1 (Int.emod_lt_of_pos _ (by norm_num)))).1

theorem foldKey_decode {k : Int} (h0 : 0 ≤ k) (h1 : k < 1771561) :
    foldKey (decode k) 0 = k := by
  have hd : ∀ x : Int, 0 ≤ x % 11 ∧ x % 11 ≤ 10 := fun x => by omega
  rw [decode_eq]
  simp only [foldKey, List.foldl_cons, List.foldl_nil,
    (renderDigit_range (hd _).1 (hd _).2).2]
  omega

theorem canonical_valid {rs : List Int} (h : ∀ r ∈ rs, (48 ≤ r ∧ r ≤ 57) ∨ r = 45) :
    (∀ r ∈ rs, ValidSymbol r) ∧ (∀ r ∈ rs, r < 128) ∧ normalize rs = rs := by
  refine ⟨fun r hr => ?_, fun r hr => ?_, ?_⟩
  · rcases h r hr with hd | hd
    · exact Or.inl hd
    · exact Or.inr (by subst hd; decide)
  · rcases h r hr with hd | hd <;> omega
  · unfold normalize
    conv_rhs => rw [← List.map_id rs]
    apply List.map_congr_left
    intro r hr
    rcases h r hr with hd | hd
    · have : r ∉ acceptedDashes := by
        simp only [acceptedDashes, List.mem_cons, List.mem_singleton, List.not_mem_nil,
          or_false]
        omega
      rw [if_neg this]; rfl
    · subst hd; decide

/-! ## Auxiliary lemmas on UTF-8 decoding -/

theorem decodeRune_of_ascii (b : Fin 256) (bs : GoString) (h : b.val < 128) :
    decodeRune (b :: bs) = ((b.val : Int), 1) := by
  simp only [decodeRune]
  rw [if_pos h]

theorem decodeRune_ascii_inv (b : Fin 256) (bs : GoString)
    (h : (decodeRune (b :: bs)).1 < 128) : b.val < 128 := by
  by_contra hb
  simp only [decodeRune, RuneError] at h
  rw [if_neg hb] at h
  split_ifs at h
  all_goals first
    | (exfalso; omega)
    | (split at h
       all_goals first
         | (exfalso; omega)
         | (split_ifs at h
            all_goals (exfalso; omega)))

theorem decodeRune_width_pos (b : Fin 256) (bs : GoString) :
    1 ≤ (decodeRune (b :: bs)).2 := by
  simp only [decodeRune]
  split_ifs
  all_goals first
    | exact le_rfl
    | (split
       all_goals first
         | exact le_rfl
         | (split_ifs
            all_goals first
              | exact le_rfl
              | (show 1 ≤ _; omega)))

/-- The iteration bound of `toRunes` is never reached: any bound of at least the
number of bytes gives the same runes. -/
theorem toRunesAux_fuel : ∀ (n : Nat) (bs : GoString) (m : Nat), bs.length ≤ n →
    bs.length ≤ m → toRunesAux n bs = toRunesAux m bs
  | 0, [], m, _, _ => by cases m <;> rfl
  | 0, _ :: _, _, h, _ => by simp at h
  | _ + 1, [], m, _, _ => by cases m <;> rfl
  | _ + 1, _ :: _, 0, _, h => by simp at h
  | n + 1, b :: bs, m + 1, hn, hm => by
    have hw := decodeRune_width_pos b bs
    have hlen : ((b :: bs).drop (decodeRune (b :: bs)).2).length ≤ bs.length := by
      rw [List.length_drop, List.length_cons]; omega
    rw [toRunesAux, toRunesAux,
      toRunesAux_fuel n _ m (le_trans hlen (by simpa using hn))
        (le_trans hlen (by simpa using hm))]

theorem toRunesAux_of_ascii : ∀ (fuel : Nat) (bs : GoString), bs.length ≤ fuel →
    (∀ b ∈ bs, b.val < 128) → toRunesAux fuel bs = bs.map (fun b => (b.val : Int))
  | 0, [], _, _ => rfl
  | 0, _ :: _, h, _ => by simp at h
  | _ + 1, [], _, _ => rfl
  | fuel + 1, b :: bs, h, hb => by
    have h1 := decodeRune_of_ascii b bs (hb b (List.mem_cons_self b bs))
    rw [toRunesAux, h1]
    simp only [List.drop_succ_cons, List.drop_zero, List.map_cons]
    rw [toRunesAux_of_ascii fuel bs (by simpa using h)
      (fun x hx => hb x (List.mem_cons_of_mem b hx))]

theorem toRunes_of_ascii (bs : GoString) (hb : ∀ b ∈ bs, b.val < 128) :
    toRunes bs = bs.map (fun b => (b.val : Int)) :=
  toRunesAux_of_ascii bs.length bs le_rfl hb

theorem ascii_of_toRunesAux : ∀ (fuel : Nat) (bs : GoString), bs.length ≤ fuel →
    (∀ r ∈ toRunesAux fuel bs, r < 128) → ∀ b ∈ bs, b.val < 128
  | 0, [], _, _ => by simp
  | 0, _ :: _, h, _ => by simp at h
  | _ + 1, [], _, _ => by simp
  | fuel + 1, b :: bs, h, hr => by
    rw [toRunesAux] at hr
    have hb : b.val < 128 := decodeRune_ascii_inv b bs (hr _ (List.mem_cons_self _ _))
    rw [decodeRune_of_ascii b bs hb] at hr
    simp only [List.drop_succ_cons, List.drop_zero] at hr
    have ih := ascii_of_toRunesAux fuel bs (by simpa using h)
      (fun r hx => hr r (List.mem_cons_of_mem _ hx))
    intro x hx
    rcases List.mem_cons.1 hx with rfl | hx
    · exact hb
    · exact ih x hx

theorem ascii_of_toRunes (bs : GoString) (hr : ∀ r ∈ toRunes bs, r < 128) :
    ∀ b ∈ bs, b.val < 128 :=
  ascii_of_toRunesAux bs.length bs le_rfl hr

theorem asciiString_val (rs : List Int) (h : ∀ r ∈ rs, 0 ≤ r ∧ r < 128) :
    (∀ b ∈ asciiString rs, b.val < 128)
    ∧ (asciiString rs).map (fun b => (b.val : Int)) = rs := by
  have hval : ∀ r ∈ rs, ((Fin.ofNat r.toNat : Fin 256).val : Int) = r := by
    intro r hr
    have := h r hr
    show ((r.toNat % 256 : Nat) : Int) = r
    omega
  constructor
  · intro b hb
    obtain ⟨r, hr, rfl⟩ := List.mem_map.1 hb
    have := hval r hr
    have := h r hr
    omega
  · unfold asciiString
    rw [List.map_map]
    conv_rhs => rw [← List.map_id rs]
    apply List.map_congr_left
    intro r hr
    exact hval r hr

theorem asciiString_map_val (q : GoString) :
    asciiString (q.map (fun b => (b.val : Int))) = q := by
  unfold asciiString
  rw [List.map_map]
  conv_rhs => rw [← List.map_id q]
  apply List.map_congr_left
  intro b _
  apply Fin.ext
  show (b.val : Int).toNat % 256 = b.val
  have := b.isLt
  omega

/-! ## Auxiliary lemmas on the cache -/

theorem set_of_allocated (c : Cache) {p : GoString} {m : Finset Int} (hp : ValidPattern p)
    (hm : c.data = some m) :
    c.Set p = Outcome.returned
      ({ c with data := some (insert (foldKey (toRunes p) 0) m) }, none) := by
  unfold Cache.Set
  rw [encode_eq_foldKey c hp]
  simp only [hm]

theorem set_of_nil (c : Cache) {p : GoString} (hp : ValidPattern p) (hm : c.data = none) :
    c.Set p = Outcome.panicked "assignment to entry in nil map" := by
  unfold Cache.Set
  rw [encode_eq_foldKey c hp]
  simp only [hm]

theorem exists_of_allocated (c : Cache) {p : GoString} {m : Finset Int} (hp : ValidPattern p)
    (hm : c.data = some m) :
    c.Exists p = (decide (foldKey (toRunes p) 0 ∈ m), none) := by
  unfold Cache.Exists
  rw [encode_eq_foldKey c hp]
  simp only [hm]

theorem exists_of_nil (c : Cache) {p : GoString} (hp : ValidPattern p) (hm : c.data = none) :
    c.Exists p = (false, none) := by
  unfold Cache.Exists
  rw [encode_eq_foldKey c hp]
  simp only [hm]

/-- A `Set` never turns an allocated map into a `nil` one. -/
theorem set_keeps_allocated (c c' : Cache) (p : GoString) (e : Option EncodeError)
    (hc : c.data ≠ none) (h : c.Set p = Outcome.returned (c', e)) : c'.data ≠ none := by
  unfold Cache.Set at h
  split at h
  · cases h; exact hc
  · split at h
    · cases h
    · cases h; simp

/-- Starting from an allocated map, any run of `Set` calls returns and leaves the
map allocated. -/
theorem setAll_of_allocated : ∀ (ps : List GoString) (c : Cache), c.data ≠ none →
    ∃ c', c.SetAll ps = Outcome.returned c' ∧ c'.data ≠ none
  | [], c, hc => ⟨c, rfl, hc⟩
  | p :: ps, c, hc => by
    have hret : ∃ c1 e, c.Set p = Outcome.returned (c1, e) := by
      unfold Cache.Set
      split
      · exact ⟨_, _, rfl⟩
      · split
        · rename_i h; exact absurd h hc
        · exact ⟨_, _, rfl⟩
    obtain ⟨c1, e, h1⟩ := hret
    obtain ⟨c', h2, h3⟩ := setAll_of_allocated ps c1 (set_keeps_allocated c c1 p e hc h1)
    refine ⟨c', ?_, h3⟩
    rw [Cache.SetAll, h1]
    exact h2

/-! ## Properties of the encoder -/

/-- C1. For every pattern of exactly six runes, each a decimal digit or an accepted
dash, `Encode` returns with a nil error the key of the left-to-right fold
`key = key*11 + value(r)` started at 0, which is the positional sum of
`value(r_i) * 11^(5-i)`; so "123456" gives 194871, "1-3-56" gives 312725 and
"------" gives 1771560. -/
theorem encode_is_base11_fold (c : Cache) (p : GoString) (h : ValidPattern p) :
    c.Encode p = ((toRunes p).foldl (fun key r => key * 11 + symbolValue r) 0, none)
    ∧ (toRunes p).foldl (fun key r => key * 11 + symbolValue r) 0
        = ∑ i in Finset.range 6, symbolValue ((toRunes p).getD i 0) * 11 ^ (5 - i)
    ∧ c.Encode pat123456 = (194871, none)
    ∧ c.Encode pat1d3d56 = (312725, none)
    ∧ c.Encode patDashes = (1771560, none) := by
  refine ⟨encode_eq_foldKey c h, ?_, ?_, ?_, ?_⟩
  case refine_2 => unfold Cache.Encode; decide
  case refine_3 => unfold Cache.Encode; decide
  case refine_4 => unfold Cache.Encode; decide
  obtain ⟨r0, r1, r2, r3, r4, r5, hl⟩ := list_length_six h.1
  rw [hl]
  simp only [List.foldl_cons, List.foldl_nil, Finset.sum_range_succ, Finset.sum_range_zero,
    List.getD_cons_zero, List.getD_cons_succ]
  ring

/-- Witness of C1 on "1-3-56" written with an en dash. -/
theorem encode_is_base11_fold_witness :
    ValidPattern pat1n3d56 ∧ (NewCache 0).Encode pat1n3d56 = (312725, none) :=
  ⟨by decide, (encode_is_base11_fold (NewCache 0) pat1n3d56 (by decide)).1.trans (by decide)⟩

/-- C2. For valid patterns `p` and `q`, `Encode p = Encode q` exactly when `p` and `q`
have the same normal form (every accepted dash replaced by `'-'`), and decoding
the key of `p` by the reverse base-11 expansion gives the normal form of `p`. -/
theorem encode_injective_up_to_dash (c : Cache) (p q : GoString) (hp : ValidPattern p)
    (hq : ValidPattern q) :
    (c.Encode p = c.Encode q ↔ normalize (toRunes p) = normalize (toRunes q))
    ∧ decode (c.Encode p).1 = normalize (toRunes p) := by
  rw [encode_eq_foldKey c hp, encode_eq_foldKey c hq]
  refine ⟨⟨fun h => ?_, fun h => ?_⟩, decode_foldKey hp.1 hp.2⟩
  · rw [← decode_foldKey hp.1 hp.2, ← decode_foldKey hq.1 hq.2, (Prod.mk.inj h).1]
  · rw [← foldKey_normalize (toRunes p), ← foldKey_normalize (toRunes q), h]

/-- Witness of C2: "1-3-56" and its en-dash spelling are different strings with
the same key, which decodes to "1-3-56". -/
theorem encode_injective_up_to_dash_witness :
    ValidPattern pat1d3d56 ∧ ValidPattern pat1n3d56 ∧ pat1d3d56 ≠ pat1n3d56
    ∧ (NewCache 0).Encode pat1d3d56 = (NewCache 0).Encode pat1n3d56
    ∧ decode ((NewCache 0).Encode pat1n3d56).1 = toRunes pat1d3d56 :=
  ⟨by decide, by decide, by decide,
    (encode_injective_up_to_dash (NewCache 0) pat1d3d56 pat1n3d56 (by decide) (by decide)).1.2
      (by decide),
    (encode_injective_up_to_dash (NewCache 0) pat1n3d56 pat1d3d56 (by decide) (by decide)).2.trans
      (by decide)⟩

/-! ## Properties of the cache -/

/-- C3. On a cache built by `NewCache`, for valid patterns `p` and `q` that agree
position by position up to the choice of accepted dash variant (that have the same
normal form; in particular `q = p`), `Set p` returns a nil error and a following
`Exists q` returns `(true, nil)`. -/
theorem set_then_exists_dash_variant (capacity : Int) (p q : GoString) (hp : ValidPattern p)
    (hq : ValidPattern q) (h : normalize (toRunes p) = normalize (toRunes q)) :
    ∃ c', (NewCache capacity).Set p = Outcome.returned (c', none)
      ∧ c'.Exists q = (true, none) := by
  refine ⟨_, set_of_allocated (NewCache capacity) hp rfl, ?_⟩
  rw [exists_of_allocated _ hq rfl, foldKey_eq_of_normalize h]
  simp

/-- Witness of C3: `Set("1-3-56")`, then `Exists` of the same pattern written with
an en dash in its second position. -/
theorem set_then_exists_dash_variant_witness :
    ValidPattern pat1d3d56 ∧ ValidPattern pat1n3d56
    ∧ normalize (toRunes pat1d3d56) = normalize (toRunes pat1n3d56)
    ∧ ∃ c', (NewCache MaxCombInt).Set pat1d3d56 = Outcome.returned (c', none)
        ∧ c'.Exists pat1n3d56 = (true, none) :=
  ⟨by decide, by decide, by decide,
    set_then_exists_dash_variant MaxCombInt pat1d3d56 pat1n3d56 (by decide) (by decide)
      (by decide)⟩

/-- Counterexample to C4 as stated: on the cache `NewCache(0)` released by `Free()`,
`Set("123456")` does not complete normally; it ends in the runtime panic of a write
to a `nil` map, and the same holds after `FreeLargeMap`. -/
theorem set_after_free_panics_example :
    ValidPattern pat123456
    ∧ ((NewCache 0).Free).Set pat123456 = Outcome.panicked "assignment to entry in nil map"
    ∧ ((NewCache 0).FreeLargeMap 0 ⟨0, 0, fun _ => 0, fun _ => 1⟩ 1).2 = PollResult.timeout 0 0
    ∧ ((NewCache 0).FreeLargeMap 0 ⟨0, 0, fun _ => 0, fun _ => 1⟩ 1).1.Set pat123456
        = Outcome.panicked "assignment to entry in nil map"
    ∧ ¬ ∃ c', ((NewCache 0).Free).Set pat123456 = Outcome.returned (c', none) := by
  refine ⟨by decide, by decide, by decide, by decide, ?_⟩
  rintro ⟨c', h⟩
  have hpanic : ((NewCache 0).Free).Set pat123456
      = Outcome.panicked "assignment to entry in nil map" := by decide
  rw [hpanic] at h
  cases h

/-! ## Errors, range and surjectivity of the encoder -/

/-- C5. For every string `s`, `Encode s` fails with the length error exactly when the
number of runes of `s` differs from 6, whatever the symbols are: inputs of 5 and
of 7 symbols are rejected (also 7 letters, which are not symbols of the alphabet),
the 8-byte pattern of 6 runes with an en dash is not rejected, and a 6-byte string
of 4 runes is. -/
theorem encode_length_error_iff (c : Cache) (s : GoString) :
    (c.Encode s = (0, some EncodeError.invalidLength) ↔ (toRunes s).length ≠ 6)
    ∧ c.Encode pat12345 = (0, some EncodeError.invalidLength)
    ∧ c.Encode pat1234567 = (0, some EncodeError.invalidLength)
    ∧ c.Encode patLetters = (0, some EncodeError.invalidLength)
    ∧ (pat1n3d56.length = 8 ∧ (toRunes pat1n3d56).length = 6
        ∧ c.Encode pat1n3d56 = (312725, none))
    ∧ (pat1n34.length = 6 ∧ (toRunes pat1n34).length = 4
        ∧ c.Encode pat1n34 = (0, some EncodeError.invalidLength)) := by
  refine ⟨⟨fun h hlen => ?_, fun h => ?_⟩, ?_, ?_, ?_, ⟨by decide, by decide, ?_⟩,
    ⟨by decide, by decide, ?_⟩⟩
  · unfold Cache.Encode encodeRunes at h
    rw [if_neg (by rw [hlen]; decide)] at h
    have h2 := encodeLoop_error (toRunes s) 0
    rw [h] at h2
    cases hf : (toRunes s).find? (fun r => decide (¬ ValidSymbol r)) with
    | none => rw [hf] at h2; cases h2
    | some r => rw [hf] at h2; cases h2
  · unfold Cache.Encode encodeRunes
    exact if_pos h
  all_goals (unfold Cache.Encode; decide)

/-- C6. For every string `s` of exactly 6 runes, `Encode s` fails with the
invalid-character error exactly when some rune of `s` is neither an ASCII digit
nor one of the seven accepted dash runes; the error then carries the leftmost such
rune and the key is 0; otherwise `Encode` returns a nil error. The letter `'a'` of
"12345a" is reported, and of the two letters of "12a45b" the left one. -/
theorem encode_invalid_character_iff (c : Cache) (s : GoString)
    (hlen : (toRunes s).length = 6) :
    ((∃ r, c.Encode s = (0, some (EncodeError.invalidCharacter r)))
        ↔ ∃ r ∈ toRunes s, ¬ ((48 ≤ r ∧ r ≤ 57) ∨ r = 0x2D ∨ r = 0x2013 ∨ r = 0x2014
            ∨ r = 0x2212 ∨ r = 0x2012 ∨ r = 0x2010 ∨ r = 0x2011))
    ∧ (∀ r, (c.Encode s).2 = some (EncodeError.invalidCharacter r) →
        (toRunes s).find? (fun x => decide (¬ ValidSymbol x)) = some r
        ∧ c.Encode s = (0, some (EncodeError.invalidCharacter r)))
    ∧ ((∀ r ∈ toRunes s, ValidSymbol r) → (c.Encode s).2 = none)
    ∧ ((c.Encode s).2 = none → ∀ r ∈ toRunes s, ValidSymbol r)
    ∧ c.Encode pat12345a = (0, some (EncodeError.invalidCharacter 97))
    ∧ c.Encode pat12a45b = (0, some (EncodeError.invalidCharacter 97)) := by
  have henc : c.Encode s = encodeLoop (toRunes s) 0 := by
    unfold Cache.Encode encodeRunes
    rw [if_neg (by rw [hlen]; decide)]
  have herr := encodeLoop_error (toRunes s) 0
  have hvalid : ∀ r : Int, ValidSymbol r ↔ ((48 ≤ r ∧ r ≤ 57) ∨ r = 0x2D ∨ r = 0x2013
      ∨ r = 0x2014 ∨ r = 0x2212 ∨ r = 0x2012 ∨ r = 0x2010 ∨ r = 0x2011) := by
    intro r
    simp [ValidSymbol, acceptedDashes]
  have hsnd : ∀ r, (c.Encode s).2 = some (EncodeError.invalidCharacter r) →
      (toRunes s).find? (fun x => decide (¬ ValidSymbol x)) = some r
      ∧ c.Encode s = (0, some (EncodeError.invalidCharacter r)) := by
    intro r h
    rw [henc] at h ⊢
    have hkey := encodeLoop_key_of_error (toRunes s) 0 (by rw [h]; simp)
    constructor
    · rw [herr] at h
      cases hf : (toRunes s).find? (fun x => decide (¬ ValidSymbol x)) with
      | none => rw [hf] at h; cases h
      | some x =>
        rw [hf] at h
        simp only [Option.map_some', Option.some.injEq, EncodeError.invalidCharacter.injEq] at h
        rw [h]
    · exact Prod.ext hkey h
  refine ⟨⟨?_, ?_⟩, hsnd, ?_, ?_, ?_, ?_⟩
  · rintro ⟨r, h⟩
    have hf := (hsnd r (by rw [h])).1
    refine ⟨r, List.mem_of_find?_eq_some hf, ?_⟩
    have := List.find?_some hf
    rw [← hvalid]
    simpa using this
  · rintro ⟨r, hr, hbad⟩
    rw [← hvalid] at hbad
    cases hf : (toRunes s).find? (fun x => decide (¬ ValidSymbol x)) with
    | none =>
      rw [List.find?_eq_none] at hf
      have := hf r hr
      simp at this
      exact absurd this hbad
    | some x =>
      refine ⟨x, (hsnd x ?_).2⟩
      rw [henc, herr, hf]
      rfl
  · intro hall
    rw [henc, herr]
    have : (toRunes s).find? (fun x => decide (¬ ValidSymbol x)) = none := by
      rw [List.find?_eq_none]
      intro x hx
      simpa using hall x hx
    rw [this]
    rfl
  · intro hnone r hr
    rw [henc, herr] at hnone
    cases hf : (toRunes s).find? (fun x => decide (¬ ValidSymbol x)) with
    | none =>
      rw [List.find?_eq_none] at hf
      simpa using hf r hr
    | some x => rw [hf] at hnone; cases hnone
  all_goals (unfold Cache.Encode; decide)

/-- Witness of C6 on "12a45b". -/
theorem encode_invalid_character_iff_witness :
    (toRunes pat12a45b).length = 6
    ∧ ∃ r, (NewCache 0).Encode pat12a45b = (0, some (EncodeError.invalidCharacter r)) :=
  ⟨by decide,
    (encode_invalid_character_iff (NewCache 0) pat12a45b (by decide)).1.2
      ⟨98, by decide, by decide⟩⟩

/-- C7. For every valid pattern the key returned by `Encode` satisfies
`0 ≤ key < MaxCombInt`, where `MaxCombInt = 1771561 = Base^NumDigits = 11^6`; after
each number `n ≤ 6` of loop iterations the `int32` accumulator is the exact value
of the fold, which is non-negative and leaves room for one more step
(`key*11 + 10 < 2^31`), so the `int32` arithmetic never wraps around. -/
theorem encode_key_in_range (c : Cache) (p : GoString) (h : ValidPattern p) :
    (∃ key, c.Encode p = (key, none) ∧ 0 ≤ key ∧ key < MaxCombInt)
    ∧ MaxCombInt = 1771561 ∧ MaxCombInt = Base ^ NumDigits ∧ MaxCombInt = 11 ^ 6
    ∧ ∀ n ≤ 6, encodeLoop ((toRunes p).take n) 0 = (foldKey ((toRunes p).take n) 0, none)
        ∧ 0 ≤ foldKey ((toRunes p).take n) 0
        ∧ foldKey ((toRunes p).take n) 0 * 11 + 10 < 2147483648 := by
  have hb := foldKey_bounds (toRunes p) 0 h.2
  rw [h.1] at hb
  refine ⟨⟨_, encode_eq_foldKey c h, by simpa using hb.1, ?_⟩, rfl, by decide, by decide, ?_⟩
  · unfold MaxCombInt
    have := hb.2
    norm_num at this
    exact this
  · intro n hn
    have hv : ∀ r ∈ (toRunes p).take n, ValidSymbol r :=
      fun r hr => h.2 r (List.mem_of_mem_take hr)
    have hlen : ((toRunes p).take n).length = n := by
      rw [List.length_take, h.1]; omega
    have hbn := foldKey_bounds ((toRunes p).take n) 0 hv
    rw [hlen] at hbn
    have hpow : (11 : Int) ^ n ≤ 11 ^ 6 := pow_le_pow_right₀ (by norm_num) hn
    have hlt : foldKey ((toRunes p).take n) 0 < 1771561 := by
      have := hbn.2
      norm_num at this hpow
      omega
    refine ⟨encodeLoop_eq_foldKey _ 0 hv le_rfl ?_, by simpa using hbn.1, by omega⟩
    rw [hlen]
    norm_num at hpow ⊢
    omega

/-- Witness of C7 on "------", the pattern with the largest key. -/
theorem encode_key_in_range_witness :
    ValidPattern patDashes
    ∧ ∃ key, (NewCache 0).Encode patDashes = (key, none) ∧ 0 ≤ key ∧ key < MaxCombInt :=
  ⟨by decide, (encode_key_in_range (NewCache 0) patDashes (by decide)).1⟩

/-- C8. `Encode` is onto the key space: for every integer `k` with `0 ≤ k < 11^6`
there is a pattern of exactly 6 symbols over `'0'..'9'` and `'-'` whose key is
`k`, and it is the only such pattern; so `Encode` restricted to canonical patterns
is a bijection onto `[0, 11^6)`. -/
theorem encode_onto_key_space (c : Cache) (k : Int) (h0 : 0 ≤ k) (h1 : k < 11 ^ 6) :
    ∃ p : GoString, CanonicalPattern p ∧ c.Encode p = (k, none)
      ∧ ∀ q : GoString, CanonicalPattern q → c.Encode q = (k, none) → q = p := by
  have hk : k < 1771561 := by norm_num at h1; exact h1
  have hcan := decode_canonical k
  have hascii := asciiString_val (decode k)
    (fun r hr => by rcases hcan.2 r hr with hd | hd <;> omega)
  have hrunes : toRunes (asciiString (decode k)) = decode k := by
    rw [toRunes_of_ascii _ hascii.1, hascii.2]
  have hpcan : CanonicalPattern (asciiString (decode k)) := by
    unfold CanonicalPattern
    rw [hrunes]
    exact hcan
  refine ⟨asciiString (decode k), hpcan, ?_, ?_⟩
  · rw [encode_eq_foldKey c ⟨hpcan.1, (canonical_valid hpcan.2).1⟩, hrunes,
      foldKey_decode h0 hk]
  · intro q hq henc
    have hqv := canonical_valid hq.2
    rw [encode_eq_foldKey c ⟨hq.1, hqv.1⟩] at henc
    have hdec : decode k = toRunes q := by
      rw [← (Prod.mk.inj henc).1, decode_foldKey hq.1 hqv.1, hqv.2.2]
    have hqa := ascii_of_toRunes q hqv.2.1
    rw [hdec, toRunes_of_ascii q hqa, asciiString_map_val]

/-- Witness of C8 at the key 312725, whose pattern is "1-3-56". -/
theorem encode_onto_key_space_witness :
    (0 : Int) ≤ 312725 ∧ (312725 : Int) < 11 ^ 6
    ∧ ∃ p : GoString, CanonicalPattern p ∧ (NewCache 0).Encode p = (312725, none)
      ∧ ∀ q : GoString, CanonicalPattern q → (NewCache 0).Encode q = (312725, none) → q = p :=
  ⟨by decide, by decide, encode_onto_key_space (NewCache 0) 312725 (by decide) (by decide)⟩

/-! ## Clearing and releasing the cache -/

/-- C9. For every cache state reached from `NewCache` by `Set` calls, after `Clear()`
the call `Exists p` returns `(false, nil)` for every valid pattern `p`, and for
every valid pattern `q` a subsequent `Set q` returns a nil error and a following
`Exists q` returns `(true, nil)`. -/
theorem clear_empties_and_stays_usable (capacity : Int) (ps : List GoString)
    (p q : GoString) (hp : ValidPattern p) (hq : ValidPattern q) :
    ∃ c, (NewCache capacity).SetAll ps = Outcome.returned c
      ∧ (c.Clear).Exists p = (false, none)
      ∧ ∃ c', (c.Clear).Set q = Outcome.returned (c', none)
          ∧ c'.Exists q = (true, none) := by
  obtain ⟨c, hc, hne⟩ := setAll_of_allocated ps (NewCache capacity) (by simp [NewCache])
  have hclear : (c.Clear).data = some ∅ := by
    cases hm : c.data with
    | none => exact absurd hm hne
    | some m => simp [Cache.Clear, hm]
  refine ⟨c, hc, ?_, _, set_of_allocated _ hq hclear, ?_⟩
  · rw [exists_of_allocated _ hp hclear]
    simp
  · rw [exists_of_allocated _ hq rfl]
    simp

/-- Witness of C9: after `Set("1-3-56")`, `Set("123456")` and `Clear()`, the pattern
"1-3-56" is absent and "------" can be set and found. -/
theorem clear_empties_and_stays_usable_witness :
    ValidPattern pat1d3d56 ∧ ValidPattern patDashes
    ∧ ∃ c, (NewCache 0).SetAll [pat1d3d56, pat123456] = Outcome.returned c
      ∧ (c.Clear).Exists pat1d3d56 = (false, none)
      ∧ ∃ c', (c.Clear).Set patDashes = Outcome.returned (c', none)
          ∧ c'.Exists patDashes = (true, none) :=
  ⟨by decide, by decide,
    clear_empties_and_stays_usable 0 [pat1d3d56, pat123456] pat1d3d56 patDashes (by decide)
      (by decide)⟩

/-- C10. For every cache state and every valid pattern `p`, after `Free()` and after
`FreeLargeMap` (whether the polling ends with a release, with a timeout, or is
still under way) `Exists p` returns `(false, nil)`: the released cache reads as
empty. -/
theorem exists_after_free_is_false (c : Cache) (p : GoString) (hp : ValidPattern p)
    (timeout : Int) (rt : Runtime) (fuel : Nat) :
    (c.Free).Exists p = (false, none)
    ∧ (c.FreeLargeMap timeout rt fuel).1.Exists p = (false, none) :=
  ⟨exists_of_nil _ hp rfl, exists_of_nil _ hp rfl⟩

/-- Witness of C10 on the cache that holds "1-3-56": the pattern is found before
the release and not after it, and `FreeLargeMap` reports a release on one runtime
and a timeout on another. -/
theorem exists_after_free_is_false_witness :
    ValidPattern pat1d3d56
    ∧ (⟨some {312725}, 8⟩ : Cache).Exists pat1d3d56 = (true, none)
    ∧ ((⟨some {312725}, 8⟩ : Cache).FreeLargeMap 5000000000 ⟨7, 0, fun _ => 9, fun _ => 0⟩ 1).2
        = PollResult.released
    ∧ ((⟨some {312725}, 8⟩ : Cache).FreeLargeMap 0 ⟨7, 0, fun _ => 7, fun _ => 1⟩ 1).2
        = PollResult.timeout 7 7
    ∧ ((⟨some {312725}, 8⟩ : Cache).Free).Exists pat1d3d56 = (false, none)
    ∧ ((⟨some {312725}, 8⟩ : Cache).FreeLargeMap 0 ⟨7, 0, fun _ => 7, fun _ => 1⟩ 1).1.Exists
        pat1d3d56 = (false, none) :=
  ⟨by decide, by decide, by decide, by decide,
    (exists_after_free_is_false ⟨some {312725}, 8⟩ pat1d3d56 (by decide) 0
      ⟨7, 0, fun _ => 7, fun _ => 1⟩ 1).1,
    (exists_after_free_is_false ⟨some {312725}, 8⟩ pat1d3d56 (by decide) 0
      ⟨7, 0, fun _ => 7, fun _ => 1⟩ 1).2⟩

/-! ## Set, Exists and NewCache as single calls -/

theorem set_of_encode_error (c : Cache) {s : GoString} {e : EncodeError}
    (h : (c.Encode s).2 = some e) : c.Set s = Outcome.returned (c, some e) := by
  unfold Cache.Set
  split
  · rename_i k err hk
    rw [hk] at h
    cases h
    rfl
  · rename_i k hk
    rw [hk] at h
    cases h

theorem set_of_encode_ok (c : Cache) {s : GoString} {k : Int} {m : Finset Int}
    (h : c.Encode s = (k, none)) (hm : c.data = some m) :
    c.Set s = Outcome.returned ({ c with data := some (insert k m) }, none) := by
  unfold Cache.Set
  rw [h]
  simp only [hm]

theorem set_of_encode_ok_nil (c : Cache) {s : GoString} (h : (c.Encode s).2 = none)
    (hm : c.data = none) :
    c.Set s = Outcome.panicked "assignment to entry in nil map" := by
  unfold Cache.Set
  split
  · rename_i k err hk
    rw [hk] at h
    cases h
  · simp only [hm]

theorem exists_of_encode_error (c : Cache) {s : GoString} {e : EncodeError}
    (h : (c.Encode s).2 = some e) : c.Exists s = (false, some e) := by
  unfold Cache.Exists
  split
  · rename_i k err hk
    rw [hk] at h
    cases h
    rfl
  · rename_i k hk
    rw [hk] at h
    cases h

/-- C11. `Set` is idempotent: for every cache with allocated storage and every
valid pattern `p`, both `Set p` calls return a nil error, the set of present keys
after `Set p; Set p` is the set after a single `Set p`, `Exists p` is `(true, nil)`
after one call and after two, and the number of present keys is the same. -/
theorem set_idempotent (c : Cache) (p : GoString) (hc : c.data ≠ none)
    (hp : ValidPattern p) :
    ∃ c1 c2, c.Set p = Outcome.returned (c1, none)
      ∧ c1.Set p = Outcome.returned (c2, none)
      ∧ c2.keys = c1.keys ∧ c2 = c1
      ∧ c1.Exists p = (true, none) ∧ c2.Exists p = (true, none)
      ∧ c2.size = c1.size := by
  cases hm : c.data with
  | none => exact absurd hm hc
  | some m =>
    have h1 := set_of_allocated c hp hm
    have h2 := set_of_allocated
      ({ c with data := some (insert (foldKey (toRunes p) 0) m) } : Cache) hp rfl
    have he : ({ c with data := some (insert (foldKey (toRunes p) 0) m) } : Cache).Exists p
        = (true, none) := by
      rw [exists_of_allocated _ hp rfl]
      simp
    simp only [Finset.insert_idem] at h2
    exact ⟨_, _, h1, h2, rfl, rfl, he, he, rfl⟩

/-- Witness of C11 on the cache that holds "123456" and the pattern "1-3-56": one
`Set` and two `Set` calls both leave the two keys 194871 and 312725. -/
theorem set_idempotent_witness :
    (⟨some {194871}, 8⟩ : Cache).data ≠ none ∧ ValidPattern pat1d3d56
    ∧ ∃ c1 c2, (⟨some {194871}, 8⟩ : Cache).Set pat1d3d56 = Outcome.returned (c1, none)
      ∧ c1.Set pat1d3d56 = Outcome.returned (c2, none)
      ∧ c2.keys = c1.keys ∧ c2 = c1
      ∧ c1.Exists pat1d3d56 = (true, none) ∧ c2.Exists pat1d3d56 = (true, none)
      ∧ c2.size = c1.size :=
  ⟨by decide, by decide, set_idempotent ⟨some {194871}, 8⟩ pat1d3d56 (by decide) (by decide)⟩

/-- C12. For every cache state and every string `s`, `Set s` returns an error exactly
when `Encode s` does, the error returned is the one `Encode` produced, and the
cache handed back is the cache as it was, so its present keys and its capacity
are unchanged. A string of 5 symbols and one with a letter are sample inputs. -/
theorem set_error_iff_encode_error (c : Cache) (s : GoString) :
    (∀ e, (∃ c', c.Set s = Outcome.returned (c', some e)) ↔ (c.Encode s).2 = some e)
    ∧ (∀ c' e, c.Set s = Outcome.returned (c', some e) →
        c' = c ∧ c'.keys = c.keys ∧ c'.capacity = c.capacity)
    ∧ c.Set pat12345 = Outcome.returned (c, some EncodeError.invalidLength)
    ∧ c.Set pat12345a = Outcome.returned (c, some (EncodeError.invalidCharacter 97)) := by
  have hret : ∀ c' e, c.Set s = Outcome.returned (c', some e) →
      (c.Encode s).2 = some e ∧ c' = c := by
    intro c' e h
    unfold Cache.Set at h
    split at h
    · rename_i k err hk
      cases h
      exact ⟨by rw [hk], rfl⟩
    · split at h
      · cases h
      · cases h
  refine ⟨fun e => ⟨fun ⟨c', h⟩ => (hret c' e h).1, fun h => ⟨c, set_of_encode_error c h⟩⟩,
    fun c' e h => ?_, ?_, ?_⟩
  · rw [(hret c' e h).2]
    exact ⟨rfl, rfl, rfl⟩
  · exact set_of_encode_error c (by unfold Cache.Encode; decide)
  · exact set_of_encode_error c (by unfold Cache.Encode; decide)

/-- C13. For every cache state and every string `s`, the call `Exists s` hands back
the cache as it was, so its present keys and its capacity are unchanged, whether
it returns a boolean or an encoding error; on an encoding error it returns
`false` together with the error `Encode` produced. -/
theorem exists_leaves_cache_unchanged (c : Cache) (s : GoString) :
    (∃ found err, c.step (Op.query s) = Outcome.returned (c, Reply.query found err)
        ∧ (found, err) = c.Exists s)
    ∧ (∀ c' r, c.step (Op.query s) = Outcome.returned (c', r) →
        c'.keys = c.keys ∧ c'.capacity = c.capacity ∧ c'.data = c.data)
    ∧ (∀ e, (c.Encode s).2 = some e → c.Exists s = (false, some e))
    ∧ (∀ e, (c.Exists s).2 = some e → (c.Encode s).2 = some e ∧ (c.Exists s).1 = false) := by
  refine ⟨⟨_, _, rfl, rfl⟩, fun c' r h => ?_, fun e h => exists_of_encode_error c h,
    fun e h => ?_⟩
  · simp only [Cache.step, Outcome.returned.injEq, Prod.mk.injEq] at h
    rw [← h.1]
    exact ⟨rfl, rfl, rfl⟩
  · unfold Cache.Exists at h ⊢
    split at h
    · rename_i k err hk
      rw [hk]
      exact ⟨h, rfl⟩
    · split at h <;> cases h

/-- C16. For every integer `capacity`, `NewCache capacity` is an empty cache,
`Exists` is `(false, nil)` for every valid pattern and no key is present, whose
recorded capacity is `capacity` when it is positive and `MaxCombInt = 1771561 =
11^6` otherwise. -/
theorem newCache_empty_with_capacity (capacity : Int) (p : GoString) (hp : ValidPattern p) :
    (NewCache capacity).Exists p = (false, none)
    ∧ (NewCache capacity).data = some ∅
    ∧ (NewCache capacity).size = 0
    ∧ (0 < capacity → (NewCache capacity).capacity = capacity)
    ∧ (capacity ≤ 0 → (NewCache capacity).capacity = MaxCombInt)
    ∧ MaxCombInt = 1771561 ∧ MaxCombInt = 11 ^ 6 := by
  refine ⟨?_, rfl, rfl, fun h => ?_, fun h => ?_, rfl, by decide⟩
  · rw [exists_of_allocated _ hp rfl]
    simp
  · show (if capacity ≤ 0 then MaxCombInt else capacity) = capacity
    rw [if_neg (by omega)]
  · show (if capacity ≤ 0 then MaxCombInt else capacity) = MaxCombInt
    rw [if_pos h]

/-- Witness of C16: the capacities recorded for the hints 1000, 0 and -5. -/
theorem newCache_empty_with_capacity_witness :
    ValidPattern pat123456
    ∧ (NewCache 1000).Exists pat123456 = (false, none)
    ∧ (NewCache 1000).capacity = 1000
    ∧ (NewCache 0).capacity = 1771561
    ∧ (NewCache (-5)).capacity = 1771561 :=
  ⟨by decide, (newCache_empty_with_capacity 1000 pat123456 (by decide)).1,
    (newCache_empty_with_capacity 1000 pat123456 (by decide)).2.2.2.1 (by decide),
    (newCache_empty_with_capacity 0 pat123456 (by decide)).2.2.2.2.1 (by decide),
    (newCache_empty_with_capacity (-5) pat123456 (by decide)).2.2.2.2.1 (by decide)⟩

/-! ## Sequences of calls -/

theorem encode_key_of_valid (c : Cache) {p : GoString} (hp : ValidPattern p) :
    (c.Encode p).1 = foldKey (toRunes p) 0 := by
  rw [encode_eq_foldKey c hp]

/-- The outcome of `Set` calls on valid patterns, starting from an allocated map:
every call returns a nil error and the keys of the patterns join the map. -/
theorem run_sets_of_valid : ∀ (ps : List GoString) (c : Cache) (m : Finset Int),
    c.data = some m → (∀ p ∈ ps, ValidPattern p) →
    c.run (ps.map Op.set) = Outcome.returned
      ({ c with data := some (m ∪ (ps.map (fun p => foldKey (toRunes p) 0)).toFinset) },
        ps.map (fun _ => Reply.set none))
  | [], c, m, hm, _ => by
    cases c
    simp only at hm
    subst hm
    simp [Cache.run]
  | p :: ps, c, m, hm, h => by
    have hp := h p (List.mem_cons_self p ps)
    have ih := run_sets_of_valid ps
      ({ c with data := some (insert (foldKey (toRunes p) 0) m) } : Cache) _ rfl
      (fun x hx => h x (List.mem_cons_of_mem p hx))
    have hfin : insert (foldKey (toRunes p) 0) m
          ∪ (ps.map (fun p => foldKey (toRunes p) 0)).toFinset
        = m ∪ insert (foldKey (toRunes p) 0)
          (ps.map (fun p => foldKey (toRunes p) 0)).toFinset := by
      ext k
      simp only [Finset.mem_union, Finset.mem_insert]
      tauto
    simp only [List.map_cons, Cache.run, Cache.step, set_of_allocated c hp hm, ih,
      List.toFinset_cons, hfin]

theorem setAll_eq_run : ∀ (ps : List GoString) (c : Cache),
    c.SetAll ps = match c.run (ps.map Op.set) with
      | Outcome.returned (c', _) => Outcome.returned c'
      | Outcome.panicked msg => Outcome.panicked msg
  | [], _ => rfl
  | p :: ps, c => by
    simp only [Cache.SetAll, List.map_cons, Cache.run, Cache.step]
    cases hs : c.Set p with
    | panicked msg => rfl
    | returned a =>
      obtain ⟨c1, e⟩ := a
      simp only [setAll_eq_run ps c1]
      cases c1.run (ps.map Op.set) with
      | panicked msg => rfl
      | returned b => rfl

theorem setAll_of_valid (ps : List GoString) (c : Cache) (m : Finset Int)
    (hm : c.data = some m) (h : ∀ p ∈ ps, ValidPattern p) :
    c.SetAll ps = Outcome.returned
      { c with data := some (m ∪ (ps.map (fun p => foldKey (toRunes p) 0)).toFinset) } := by
  rw [setAll_eq_run, run_sets_of_valid ps c m hm h]

/-- C14. The capacity hint never affects results: for every integer hint and every
list of valid patterns, setting all of them on `NewCache capacity` makes every
`Set` return a nil error, makes `Exists` equal to `(true, nil)` for each of them,
and leaves the same set of present keys as on `NewCache MaxCombInt`, namely the
keys of all the patterns: the size is the number of distinct keys whatever the
hint, nothing is rejected, dropped or truncated. -/
theorem capacity_hint_never_affects_results (capacity : Int) (ps : List GoString)
    (h : ∀ p ∈ ps, ValidPattern p) :
    ∃ c1 c2,
      (NewCache capacity).run (ps.map Op.set)
        = Outcome.returned (c1, ps.map (fun _ => Reply.set none))
      ∧ (NewCache MaxCombInt).run (ps.map Op.set)
        = Outcome.returned (c2, ps.map (fun _ => Reply.set none))
      ∧ c1.keys = c2.keys
      ∧ c1.keys = (ps.map (fun p => ((NewCache capacity).Encode p).1)).toFinset
      ∧ c1.size = ((ps.map (fun p => ((NewCache capacity).Encode p).1)).dedup).length
      ∧ ∀ p ∈ ps, c1.Exists p = (true, none) := by
  have hkeys : ps.map (fun p => ((NewCache capacity).Encode p).1)
      = ps.map (fun p => foldKey (toRunes p) 0) :=
    List.map_congr_left (fun p hp => encode_key_of_valid _ (h p hp))
  refine ⟨_, _, run_sets_of_valid ps (NewCache capacity) ∅ rfl h,
    run_sets_of_valid ps (NewCache MaxCombInt) ∅ rfl h, rfl, ?_, ?_, ?_⟩
  · rw [hkeys]
    simp [Cache.keys]
  · rw [hkeys, ← List.card_toFinset]
    simp [Cache.size, Cache.keys]
  · intro p hp
    rw [exists_of_allocated _ (h p hp) rfl]
    simp only [decide_eq_true_eq, Prod.mk.injEq, and_true]
    apply Finset.mem_union_right
    rw [List.mem_toFinset]
    exact List.mem_map_of_mem _ hp

/-- Witness of C14: three `Set` calls with two distinct keys on `NewCache(1)` leave
two keys, one more than the hint, and a non-positive hint changes nothing. -/
theorem capacity_hint_never_affects_results_witness :
    (∀ p ∈ [pat123456, pat1d3d56, pat1n3d56], ValidPattern p)
    ∧ (∃ c1 c2,
      (NewCache 1).run ([pat123456, pat1d3d56, pat1n3d56].map Op.set)
        = Outcome.returned (c1, [Reply.set none, Reply.set none, Reply.set none])
      ∧ (NewCache MaxCombInt).run ([pat123456, pat1d3d56, pat1n3d56].map Op.set)
        = Outcome.returned (c2, [Reply.set none, Reply.set none, Reply.set none])
      ∧ c1.keys = c2.keys
      ∧ c1.keys = ([pat123456, pat1d3d56, pat1n3d56].map
          (fun p => ((NewCache 1).Encode p).1)).toFinset
      ∧ c1.size = (([pat123456, pat1d3d56, pat1n3d56].map
          (fun p => ((NewCache 1).Encode p).1)).dedup).length
      ∧ ∀ p ∈ [pat123456, pat1d3d56, pat1n3d56], c1.Exists p = (true, none))
    ∧ (([pat123456, pat1d3d56, pat1n3d56].map
          (fun p => ((NewCache 1).Encode p).1)).dedup).length = 2
    ∧ (NewCache 1).capacity = 1 :=
  ⟨by decide,
    capacity_hint_never_affects_results 1 [pat123456, pat1d3d56, pat1n3d56] (by decide),
    by decide, by decide⟩

/-! ## The refill loop of `main` -/

/-- The runes and the key of a zero-padded decimal below one million. -/
theorem sprintf06d_runes {i : Nat} (hi : i < 1000000) :
    toRunes (sprintf06d i)
      = [(48 : Int) + ((i / 100000 % 10 : Nat) : Int), 48 + ((i / 10000 % 10 : Nat) : Int),
         48 + ((i / 1000 % 10 : Nat) : Int), 48 + ((i / 100 % 10 : Nat) : Int),
         48 + ((i / 10 % 10 : Nat) : Int), 48 + ((i % 10 : Nat) : Int)] := by
  have hval : ∀ d : Nat, d < 10 → ((Fin.ofNat (48 + d) : Fin 256).val) = 48 + d := by
    intro d hd
    show (48 + d) % 256 = 48 + d
    omega
  have hbytes : ∀ b ∈ sprintf06d i, b.val < 128 := by
    intro b hb
    unfold sprintf06d at hb
    rw [if_pos hi] at hb
    obtain ⟨d, hd, rfl⟩ := List.mem_map.1 hb
    have hd10 : d < 10 := by
      simp only [List.mem_cons, List.mem_singleton, List.not_mem_nil, or_false] at hd
      omega
    rw [hval d hd10]
    omega
  rw [toRunes_of_ascii _ hbytes]
  unfold sprintf06d
  rw [if_pos hi]
  simp only [List.map_cons, List.map_nil]
  rw [hval _ (Nat.mod_lt _ (by norm_num)), hval _ (Nat.mod_lt _ (by norm_num)),
    hval _ (Nat.mod_lt _ (by norm_num)), hval _ (Nat.mod_lt _ (by norm_num)),
    hval _ (Nat.mod_lt _ (by norm_num)), hval _ (Nat.mod_lt _ (by norm_num))]
  push_cast
  rfl

theorem symbolValue_digit (d : Nat) (hd : d < 10) : symbolValue (48 + (d : Int)) = d := by
  unfold symbolValue
  rw [if_pos ⟨by omega, by omega⟩]
  omega

theorem sprintf06d_valid {i : Nat} (hi : i < 1000000) : ValidPattern (sprintf06d i) := by
  unfold ValidPattern
  rw [sprintf06d_runes hi]
  refine ⟨rfl, ?_⟩
  intro r hr
  simp only [List.mem_cons, List.mem_singleton, List.not_mem_nil, or_false] at hr
  left
  omega

theorem sprintf06d_key {i : Nat} (hi : i < 1000000) :
    foldKey (toRunes (sprintf06d i)) 0
      = (i / 100000 % 10 : Nat) * 161051 + (i / 10000 % 10 : Nat) * 14641
        + (i / 1000 % 10 : Nat) * 1331 + (i / 100 % 10 : Nat) * 121 + (i / 10 % 10 : Nat) * 11
        + (i % 10 : Nat) := by
  rw [sprintf06d_runes hi]
  simp only [foldKey, List.foldl_cons, List.foldl_nil,
    symbolValue_digit _ (Nat.mod_lt _ (by norm_num : 0 < 10))]
  ring

/-- Distinct numbers below 1000 have distinct keys, all below 1331. -/
theorem sprintf06d_key_small {i : Nat} (hi : i < 1000) :
    foldKey (toRunes (sprintf06d i)) 0 = ((i / 100 * 121 + i / 10 % 10 * 11 + i % 10 : Nat) : Int) := by
  rw [sprintf06d_key (by omega)]
  omega
theorem normalize_eq_of_key_eq {p q : GoString} (hp : ValidPattern p) (hq : ValidPattern q)
    (h : foldKey (toRunes p) 0 = foldKey (toRunes q) 0) :
    normalize (toRunes p) = normalize (toRunes q) := by
  rw [← decode_foldKey hp.1 hp.2, ← decode_foldKey hq.1 hq.2, h]

/-- The number of distinct keys of a list of valid patterns is the number of its
distinct normal forms. -/
theorem card_keys_eq_card_normal_forms (ps : List GoString) (h : ∀ p ∈ ps, ValidPattern p) :
    (ps.map (fun p => foldKey (toRunes p) 0)).toFinset.card
      = ((ps.map (fun p => normalize (toRunes p))).dedup).length := by
  have hmap : ps.map (fun p => foldKey (toRunes p) 0)
      = (ps.map (fun p => normalize (toRunes p))).map (fun rs => foldKey rs 0) := by
    rw [List.map_map]
    exact List.map_congr_left (fun p _ => (foldKey_normalize (toRunes p) 0).symm)
  have himg : ((ps.map (fun p => normalize (toRunes p))).map (fun rs => foldKey rs 0)).toFinset
      = ((ps.map (fun p => normalize (toRunes p))).toFinset).image (fun rs => foldKey rs 0) := by
    ext k
    simp only [List.mem_toFinset, List.mem_map, Finset.mem_image]
  rw [hmap, himg, ← List.card_toFinset]
  apply Finset.card_image_of_injOn
  intro a ha b hb hab
  simp only [List.coe_toFinset, Set.mem_setOf_eq, List.mem_map] at ha hb
  obtain ⟨p, hp, rfl⟩ := ha
  obtain ⟨q, hq, rfl⟩ := hb
  simp only [foldKey_normalize] at hab
  exact normalize_eq_of_key_eq (h p hp) (h q hq) hab

theorem refill_valid (n : Nat) (hn : n ≤ 1000000) : ∀ p ∈ refill n, ValidPattern p := by
  intro p hp
  obtain ⟨i, hi, rfl⟩ := List.mem_map.1 hp
  exact sprintf06d_valid (by have := List.mem_range.1 hi; omega)

theorem refill_normal_forms_nodup :
    ((refill 1000).map (fun p => normalize (toRunes p))).Nodup := by
  unfold refill
  rw [List.map_map]
  apply List.Nodup.map_on _ (List.nodup_range 1000)
  intro i hi j hj hij
  have hi2 := List.mem_range.1 hi
  have hj2 := List.mem_range.1 hj
  have hk := foldKey_eq_of_normalize hij
  rw [sprintf06d_key_small hi2, sprintf06d_key_small hj2] at hk
  omega

/-- C15. For every list of valid patterns set one after another on an empty cache,
the logical size is the number of distinct normal forms of the patterns, `Exists`
is `(true, nil)` for each of them and `(false, nil)` for every valid pattern whose
normal form is not among theirs. After the 1000 patterns "000000" .. "000999"
of the refill loop, `Exists("000500")` is true, `Exists("999999")` is false and the
logical size is 1000. -/
theorem size_counts_distinct_patterns (c : Cache) (ps : List GoString)
    (hc : c.data = some ∅) (h : ∀ p ∈ ps, ValidPattern p) :
    (∃ c', c.SetAll ps = Outcome.returned c'
      ∧ c'.size = ((ps.map (fun p => normalize (toRunes p))).dedup).length
      ∧ (∀ p ∈ ps, c'.Exists p = (true, none))
      ∧ ∀ q, ValidPattern q →
          normalize (toRunes q) ∉ ps.map (fun p => normalize (toRunes p)) →
          c'.Exists q = (false, none))
    ∧ ∃ c', c.SetAll (refill 1000) = Outcome.returned c'
      ∧ c'.Exists pat000500 = (true, none)
      ∧ c'.Exists pat999999 = (false, none)
      ∧ c'.size = 1000 := by
  have general : ∀ qs : List GoString, (∀ p ∈ qs, ValidPattern p) →
      ∃ c', c.SetAll qs = Outcome.returned c'
        ∧ c'.size = ((qs.map (fun p => normalize (toRunes p))).dedup).length
        ∧ (∀ p ∈ qs, c'.Exists p = (true, none))
        ∧ ∀ q, ValidPattern q →
            normalize (toRunes q) ∉ qs.map (fun p => normalize (toRunes p)) →
            c'.Exists q = (false, none) := by
    intro qs hqs
    refine ⟨_, setAll_of_valid qs c ∅ hc hqs, ?_, ?_, ?_⟩
    · simp only [Cache.size, Cache.keys, Option.getD_some, Finset.empty_union]
      exact card_keys_eq_card_normal_forms qs hqs
    · intro p hp
      rw [exists_of_allocated _ (hqs p hp) rfl]
      simp only [Finset.empty_union, List.mem_toFinset, decide_eq_true_eq, Prod.mk.injEq,
        and_true]
      exact List.mem_map_of_mem _ hp
    · intro q hq hnot
      rw [exists_of_allocated _ hq rfl]
      simp only [Finset.empty_union, List.mem_toFinset, decide_eq_false_iff_not, Prod.mk.injEq,
        and_true]
      intro hmem
      obtain ⟨p, hp, hkey⟩ := List.mem_map.1 hmem
      exact hnot (List.mem_map.2 ⟨p, hp, normalize_eq_of_key_eq (hqs p hp) hq hkey⟩)
  refine ⟨general ps h, ?_⟩
  obtain ⟨c', hrun, hsize, hin, hout⟩ := general (refill 1000) (refill_valid 1000 (by norm_num))
  refine ⟨c', hrun, ?_, ?_, ?_⟩
  · apply hin
    exact List.mem_map.2 ⟨500, List.mem_range.2 (by norm_num), by decide⟩
  · apply hout pat999999 (by decide)
    intro hmem
    obtain ⟨p, hp, hnf⟩ := List.mem_map.1 hmem
    obtain ⟨i, hi, rfl⟩ := List.mem_map.1 hp
    have hk := foldKey_eq_of_normalize hnf
    rw [sprintf06d_key_small (List.mem_range.1 hi)] at hk
    have h9 : foldKey (toRunes pat999999) 0 = 1594404 := by decide
    rw [h9] at hk
    have := List.mem_range.1 hi
    omega
  · rw [hsize, List.Nodup.dedup refill_normal_forms_nodup, List.length_map]
    simp [refill]

/-- Witness of C15 on `NewCache(0)`, with "1-3-56" set in two spellings and
"123456" once: two keys are present. -/
theorem size_counts_distinct_patterns_witness :
    (NewCache 0).data = some ∅
    ∧ (∀ p ∈ [pat1d3d56, pat123456, pat1n3d56], ValidPattern p)
    ∧ (([pat1d3d56, pat123456, pat1n3d56].map (fun p => normalize (toRunes p))).dedup).length
        = 2
    ∧ ∃ c', (NewCache 0).SetAll (refill 1000) = Outcome.returned c'
      ∧ c'.Exists pat000500 = (true, none)
      ∧ c'.Exists pat999999 = (false, none)
      ∧ c'.size = 1000 :=
  ⟨by decide, by decide, by decide,
    (size_counts_distinct_patterns (NewCache 0) [pat1d3d56, pat123456, pat1n3d56] (by decide)
      (by decide)).2⟩

/-! ## The cache as a set of keys -/

theorem validPattern_of_encode_ok (c : Cache) {s : GoString} (h : (c.Encode s).2 = none) :
    ValidPattern s := by
  unfold Cache.Encode encodeRunes at h
  by_cases hlen : (toRunes s).length = 6
  · rw [if_neg (by rw [hlen]; decide), encodeLoop_error] at h
    refine ⟨hlen, fun r hr => ?_⟩
    cases hf : (toRunes s).find? (fun x => decide (¬ ValidSymbol x)) with
    | none =>
      rw [List.find?_eq_none] at hf
      simpa using hf r hr
    | some x => rw [hf] at h; cases h
  · have hne : (toRunes s).length ≠ NumDigits := hlen
    rw [if_pos hne] at h
    cases h

/-- A key that `Encode` returns with a nil error lies in the key space. -/
theorem encode_ok_range (c : Cache) {s : GoString} {k : Int} (h : c.Encode s = (k, none)) :
    0 ≤ k ∧ k < MaxCombInt := by
  have hv := validPattern_of_encode_ok c (by rw [h])
  rw [encode_eq_foldKey c hv] at h
  have hb := foldKey_bounds (toRunes s) 0 hv.2
  rw [hv.1, (Prod.mk.inj h).1] at hb
  unfold MaxCombInt
  norm_num at hb
  omega

theorem not_clear_mem_sinceLastClear : ∀ ops : List Op, Op.clear ∉ sinceLastClear ops
  | [] => by simp [sinceLastClear]
  | op :: ops => by
    unfold sinceLastClear
    split_ifs with h1 h2
    · exact not_clear_mem_sinceLastClear ops
    · exact h1
    · intro hmem
      rcases List.mem_cons.1 hmem with he | he
      · exact h2 he.symm
      · exact h1 he

theorem sinceLastClear_of_not_mem {ops : List Op} (h : Op.clear ∉ ops) :
    sinceLastClear ops = ops := by
  cases ops with
  | nil => rfl
  | cons op ops =>
    unfold sinceLastClear
    rw [if_neg (fun hc => h (List.mem_cons_of_mem _ hc)),
      if_neg (fun hc => h (by rw [hc]; exact List.mem_cons_self _ _))]

/-- One call on an allocated map returns, keeps the map allocated and the capacity,
and the keys afterwards are those that were there, unless the call is `Clear`,
and the key of the pattern when the call is a `Set` whose encoding succeeds. -/
theorem step_of_allocated (c : Cache) (op : Op) (m : Finset Int) (hm : c.data = some m) :
    ∃ m1 r, c.step op = Outcome.returned ({ c with data := some m1 }, r)
      ∧ ∀ k, k ∈ m1 ↔ (op ≠ Op.clear ∧ k ∈ m) ∨ ∃ p, op = Op.set p ∧ c.Encode p = (k, none) := by
  cases op with
  | set p =>
    cases he : (c.Encode p).2 with
    | some e =>
      refine ⟨m, Reply.set (some e), ?_, fun k => ⟨fun h => Or.inl ⟨by simp, h⟩, ?_⟩⟩
      · simp only [Cache.step, set_of_encode_error c he]
        cases c
        simp only at hm
        rw [hm]
      · rintro (h | ⟨p', hp', hk⟩)
        · exact h.2
        · cases hp'
          rw [hk] at he
          cases he
    | none =>
      have hpair : c.Encode p = ((c.Encode p).1, none) := Prod.ext rfl he
      refine ⟨insert (c.Encode p).1 m, Reply.set none, ?_, fun k => ?_⟩
      · simp only [Cache.step, set_of_encode_ok c hpair hm]
      · rw [Finset.mem_insert]
        constructor
        · rintro (h | h)
          · exact Or.inr ⟨p, rfl, by rw [h]; exact hpair⟩
          · exact Or.inl ⟨by simp, h⟩
        · rintro (h | ⟨p', hp', hk⟩)
          · exact Or.inr h.2
          · cases hp'
            rw [hk]
            exact Or.inl rfl
  | query p =>
    refine ⟨m, Reply.query (c.Exists p).1 (c.Exists p).2, ?_,
      fun k => ⟨fun h => Or.inl ⟨by simp, h⟩, ?_⟩⟩
    · simp only [Cache.step]
      cases c
      simp only at hm
      rw [hm]
    · rintro (h | ⟨p', hp', _⟩)
      · exact h.2
      · cases hp'
  | clear =>
    refine ⟨∅, Reply.clear, ?_, fun k => ⟨fun h => absurd h (Finset.not_mem_empty k), ?_⟩⟩
    · simp only [Cache.step, Cache.Clear, hm, Option.map_some']
    · rintro (h | ⟨p', hp', _⟩)
      · exact absurd rfl h.1
      · cases hp'
/-- Any sequence of calls on an allocated map returns, and the keys afterwards are
those that were there, when no `Clear` was called, and the keys of the successful
`Set` calls made after the most recent `Clear`. -/
theorem run_of_allocated : ∀ (ops : List Op) (c : Cache) (m : Finset Int), c.data = some m →
    ∃ m' rs, c.run ops = Outcome.returned ({ c with data := some m' }, rs)
      ∧ ∀ k, k ∈ m' ↔ (Op.clear ∉ ops ∧ k ∈ m)
          ∨ ∃ p, Op.set p ∈ sinceLastClear ops ∧ c.Encode p = (k, none)
  | [], c, m, hm => by
    refine ⟨m, [], ?_, fun k => ?_⟩
    · cases c
      simp only at hm
      rw [hm]
      rfl
    · simp [sinceLastClear]
  | op :: rest, c, m, hm => by
    obtain ⟨m1, r, hstep, hm1⟩ := step_of_allocated c op m hm
    obtain ⟨m', rs, hrun, hm'⟩ := run_of_allocated rest
      ({ c with data := some m1 } : Cache) m1 rfl
    refine ⟨m', r :: rs, ?_, fun k => ?_⟩
    · simp only [Cache.run, hstep, hrun]
    · have henc : ∀ p, ({ c with data := some m1 } : Cache).Encode p = c.Encode p := fun _ => rfl
      rw [hm' k, hm1 k]
      simp only [henc]
      by_cases hcl : Op.clear ∈ rest
      · have hs : sinceLastClear (op :: rest) = sinceLastClear rest := by
          rw [sinceLastClear, if_pos hcl]
        rw [hs]
        constructor
        · rintro (h | h)
          · exact absurd hcl h.1
          · exact Or.inr h
        · rintro (h | h)
          · exact absurd (List.mem_cons_of_mem _ hcl) h.1
          · exact Or.inr h
      · rw [sinceLastClear_of_not_mem hcl]
        by_cases hop : op = Op.clear
        · have hs : sinceLastClear (op :: rest) = rest := by
            rw [sinceLastClear, if_neg hcl, if_pos hop]
          rw [hs]
          constructor
          · rintro (⟨_, h | ⟨p, hp, _⟩⟩ | h)
            · exact absurd hop h.1
            · rw [hop] at hp; cases hp
            · exact Or.inr h
          · rintro (h | h)
            · exact absurd (by rw [hop]; exact List.mem_cons_self _ _) h.1
            · exact Or.inr h
        · have hs : sinceLastClear (op :: rest) = op :: rest := by
            rw [sinceLastClear, if_neg hcl, if_neg hop]
          rw [hs]
          constructor
          · rintro (⟨_, h | ⟨p, hp, hk⟩⟩ | ⟨p, hp, hk⟩)
            · refine Or.inl ⟨fun hmem => ?_, h.2⟩
              rcases List.mem_cons.1 hmem with he | he
              · exact hop he.symm
              · exact hcl he
            · exact Or.inr ⟨p, by rw [hp]; exact List.mem_cons_self _ _, hk⟩
            · exact Or.inr ⟨p, List.mem_cons_of_mem _ hp, hk⟩
          · rintro (h | ⟨p, hp, hk⟩)
            · exact Or.inl ⟨hcl, Or.inl ⟨hop, h.2⟩⟩
            · rcases List.mem_cons.1 hp with he | he
              · exact Or.inl ⟨hcl, Or.inr ⟨p, he.symm, hk⟩⟩
              · exact Or.inr ⟨p, he, hk⟩

/-- C19. No false positives and no false negatives: for every cache state reached
from `NewCache` by any sequence of `Set`, `Exists` and `Clear` calls and every valid
pattern `q`, `Exists q` returns a nil error and returns true exactly when some
successful `Set p` with `Encode p = Encode q` was made after the most recent `Clear`
(since creation when there was none); and a successful `Set p` leaves `Exists q`
as it was for every `q` whose key differs from the key of `p`. -/
theorem exists_iff_set_since_clear (capacity : Int) (ops : List Op) (q : GoString)
    (hq : ValidPattern q) :
    (∃ c rs, (NewCache capacity).run ops = Outcome.returned (c, rs)
      ∧ (c.Exists q).2 = none
      ∧ ((c.Exists q).1 = true ↔
          ∃ p, Op.set p ∈ sinceLastClear ops ∧ (c.Encode p).2 = none
            ∧ c.Encode p = c.Encode q))
    ∧ ∀ (c0 c1 : Cache) (p : GoString), c0.Set p = Outcome.returned (c1, none) →
        (c0.Encode p).1 ≠ (c0.Encode q).1 → c1.Exists q = c0.Exists q := by
  constructor
  · obtain ⟨m', rs, hrun, hm'⟩ := run_of_allocated ops (NewCache capacity) ∅ rfl
    refine ⟨_, rs, hrun, ?_, ?_⟩
    · rw [exists_of_allocated _ hq rfl]
    · rw [exists_of_allocated _ hq rfl]
      simp only [decide_eq_true_eq]
      rw [hm' _]
      have hencq : ∀ c : Cache, c.Encode q = (foldKey (toRunes q) 0, none) :=
        fun c => encode_eq_foldKey c hq
      constructor
      · rintro (h | ⟨p, hp, hk⟩)
        · exact absurd h.2 (Finset.not_mem_empty _)
        · exact ⟨p, hp, by rw [show ∀ c : Cache, c.Encode p = (NewCache capacity).Encode p
              from fun _ => rfl, hk], by
            rw [hencq, show ∀ c : Cache, c.Encode p = (NewCache capacity).Encode p
              from fun _ => rfl, hk]⟩
      · rintro ⟨p, hp, _, hk⟩
        refine Or.inr ⟨p, hp, ?_⟩
        rw [hencq] at hk
        exact hk
  · intro c0 c1 p hset hne
    cases hm : c0.data with
    | none =>
      cases he : (c0.Encode p).2 with
      | none => rw [set_of_encode_ok_nil c0 he hm] at hset; cases hset
      | some e => rw [set_of_encode_error c0 he] at hset; cases hset
    | some m =>
      cases he : (c0.Encode p).2 with
      | some e => rw [set_of_encode_error c0 he] at hset; cases hset
      | none =>
        have hpair : c0.Encode p = ((c0.Encode p).1, none) := Prod.ext rfl he
        rw [set_of_encode_ok c0 hpair hm] at hset
        cases hset
        rw [exists_of_allocated _ hq rfl, exists_of_allocated _ hq hm]
        have hkq : (c0.Encode q).1 = foldKey (toRunes q) 0 := encode_key_of_valid c0 hq
        rw [hkq] at hne
        simp only [Finset.mem_insert, Prod.mk.injEq, and_true, decide_eq_decide]
        constructor
        · rintro (h | h)
          · exact absurd h.symm hne
          · exact h
        · exact fun h => Or.inr h

/-- Witness of C19: after `Set("123456")`, `Clear()`, `Set("1-3-56")`, `Exists("------")`
and a failing `Set("12345")`, the en-dash spelling of "1-3-56" is found and "123456"
is not. -/
theorem exists_iff_set_since_clear_witness :
    ValidPattern pat1n3d56
    ∧ sinceLastClear [Op.set pat123456, Op.clear, Op.set pat1d3d56, Op.query patDashes,
        Op.set pat12345] = [Op.set pat1d3d56, Op.query patDashes, Op.set pat12345]
    ∧ ∃ c rs, (NewCache 0).run [Op.set pat123456, Op.clear, Op.set pat1d3d56,
          Op.query patDashes, Op.set pat12345] = Outcome.returned (c, rs)
      ∧ (c.Exists pat1n3d56).2 = none
      ∧ ((c.Exists pat1n3d56).1 = true ↔
          ∃ p, Op.set p ∈ sinceLastClear [Op.set pat123456, Op.clear, Op.set pat1d3d56,
              Op.query patDashes, Op.set pat12345]
            ∧ (c.Encode p).2 = none ∧ c.Encode p = c.Encode pat1n3d56) :=
  ⟨by decide, by decide,
    (exists_iff_set_since_clear 0 [Op.set pat123456, Op.clear, Op.set pat1d3d56,
      Op.query patDashes, Op.set pat12345] pat1n3d56 (by decide)).1⟩

/-- C20. Key-range invariant: in every cache state reached from `NewCache` by `Set`,
`Exists` and `Clear` calls, with valid or invalid arguments, every key stored in the
map lies in `[0, MaxCombInt)`, so the number of present keys never exceeds
1771561. -/
theorem stored_keys_in_key_space (capacity : Int) (ops : List Op) :
    ∃ c rs, (NewCache capacity).run ops = Outcome.returned (c, rs)
      ∧ (∀ k ∈ c.keys, 0 ≤ k ∧ k < MaxCombInt)
      ∧ c.size ≤ 1771561 := by
  obtain ⟨m', rs, hrun, hm'⟩ := run_of_allocated ops (NewCache capacity) ∅ rfl
  have hrange : ∀ k ∈ m', 0 ≤ k ∧ k < MaxCombInt := by
    intro k hk
    rcases (hm' k).1 hk with h | ⟨p, _, henc⟩
    · exact absurd h.2 (Finset.not_mem_empty _)
    · exact encode_ok_range _ henc
  refine ⟨_, rs, hrun, hrange, ?_⟩
  have hsub : m' ⊆ Finset.Ico (0 : Int) 1771561 := by
    intro k hk
    have := hrange k hk
    unfold MaxCombInt at this
    exact Finset.mem_Ico.2 this
  have hcard := Finset.card_le_card hsub
  rw [Int.card_Ico] at hcard
  simpa [Cache.size, Cache.keys] using hcard

/-! ## Termination of the polling loop -/

/-- Granting one more iteration does not change a result that was reached. -/
theorem pollLoop_succ (rt : Runtime) (deadline : Int) : ∀ (fuel i : Nat) (now : Int),
    pollLoop rt deadline fuel i now ≠ PollResult.polling →
    pollLoop rt deadline (fuel + 1) i now = pollLoop rt deadline fuel i now
  | 0, _, _, h => absurd rfl h
  | fuel + 1, i, now, h => by
    rw [pollLoop] at h
    rw [pollLoop]
    conv_rhs => rw [pollLoop]
    by_cases h1 : rt.heapAt i > rt.heapBefore
    · rw [if_pos h1, if_pos h1]
    · rw [if_neg h1] at h
      rw [if_neg h1, if_neg h1]
      by_cases h2 : now + rt.lag i > deadline
      · rw [if_pos h2, if_pos h2]
      · rw [if_neg h2] at h
        rw [if_neg h2, if_neg h2]
        exact pollLoop_succ rt deadline fuel _ _ h

theorem pollLoop_mono (rt : Runtime) (deadline : Int) (n i : Nat) (now : Int)
    (h : pollLoop rt deadline n i now ≠ PollResult.polling) :
    ∀ k, pollLoop rt deadline (n + k) i now = pollLoop rt deadline n i now
  | 0 => rfl
  | k + 1 => by
    have ih := pollLoop_mono rt deadline n i now h k
    rw [← Nat.add_assoc, pollLoop_succ rt deadline (n + k) i now (by rw [ih]; exact h), ih]

/-- The loop returns within `f + 1` iterations once the deadline is less than `f`
sleeps away. -/
theorem pollLoop_returns (rt : Runtime) (deadline : Int) : ∀ (f i : Nat) (now : Int),
    deadline < now + 50000000 * f →
    pollLoop rt deadline (f + 1) i now ≠ PollResult.polling
  | 0, i, now, h => by
    rw [pollLoop]
    split_ifs with h1 h2
    · simp
    · simp
    · exact absurd (by push_cast at h; omega) h2
  | f + 1, i, now, h => by
    rw [pollLoop]
    split_ifs with h1 h2
    · simp
    · simp
    · exact pollLoop_returns rt deadline f (i + 1) _ (by push_cast at h ⊢; omega)

/-- What a result of the loop, entered at its `i`-th iteration, says about the
readings of the runtime. -/
theorem pollLoop_result (rt : Runtime) (deadline : Int) : ∀ (fuel i : Nat),
    (pollLoop rt deadline fuel i (rt.clockAt i) = PollResult.released →
      ∃ j, rt.heapAt j > rt.heapBefore ∧ ∀ l, i ≤ l → l < j →
        rt.heapAt l ≤ rt.heapBefore ∧ rt.clockAt l + rt.lag l ≤ deadline)
    ∧ ∀ b cur, pollLoop rt deadline fuel i (rt.clockAt i) = PollResult.timeout b cur →
      ∃ j, b = rt.heapBefore ∧ cur = rt.heapAt j ∧ cur ≤ b
        ∧ rt.clockAt j + rt.lag j > deadline
        ∧ ∀ l, i ≤ l → l < j →
          rt.heapAt l ≤ rt.heapBefore ∧ rt.clockAt l + rt.lag l ≤ deadline
  | 0, _ => by
    constructor
    · intro h; rw [pollLoop] at h; cases h
    · intro b cur h; rw [pollLoop] at h; cases h
  | fuel + 1, i => by
    have ih := pollLoop_result rt deadline fuel (i + 1)
    rw [Runtime.clockAt] at ih
    rw [pollLoop]
    by_cases h1 : rt.heapAt i > rt.heapBefore
    · rw [if_pos h1]
      exact ⟨fun _ => ⟨i, h1, fun l hl hl2 => by omega⟩, fun b cur h => by cases h⟩
    rw [if_neg h1]
    by_cases h2 : rt.clockAt i + rt.lag i > deadline
    · rw [if_pos h2]
      refine ⟨fun h => (by cases h), fun b cur h => ?_⟩
      cases h
      exact ⟨i, rfl, rfl, by omega, h2, fun l hl hl2 => by omega⟩
    rw [if_neg h2]
    · have hstep : ∀ l, i ≤ l → l < i + 1 →
          rt.heapAt l ≤ rt.heapBefore ∧ rt.clockAt l + rt.lag l ≤ deadline := by
        intro l hl hl2
        have : l = i := by omega
        subst this
        exact ⟨by omega, by omega⟩
      constructor
      · intro h
        obtain ⟨j, hj, hbefore⟩ := ih.1 h
        refine ⟨j, hj, fun l hl hl2 => ?_⟩
        by_cases hli : l < i + 1
        · exact hstep l hl hli
        · exact hbefore l (by omega) hl2
      · intro b cur h
        obtain ⟨j, hb, hcur, hle, hclock, hbefore⟩ := ih.2 b cur h
        refine ⟨j, hb, hcur, hle, hclock, fun l hl hl2 => ?_⟩
        by_cases hli : l < i + 1
        · exact hstep l hl hli
        · exact hbefore l (by omega) hl2

/-- The body of `FreeLargeMap` that follows the acquisition of the lock reaches a
result within `timeout / 50 ms + 2` iterations, and more iterations do not change
it. -/
theorem freeLargeMap_body_returns (c : Cache) (timeout : Int) (rt : Runtime) :
    ∃ n, (c.FreeLargeMap timeout rt n).2 ≠ PollResult.polling
      ∧ (∀ fuel, n ≤ fuel → c.FreeLargeMap timeout rt fuel = c.FreeLargeMap timeout rt n)
      ∧ ((c.FreeLargeMap timeout rt n).2 = PollResult.released →
          ∃ j, rt.heapAt j > rt.heapBefore ∧ ∀ l, l < j →
            rt.heapAt l ≤ rt.heapBefore ∧ rt.clockAt l + rt.lag l ≤ rt.start + timeout)
      ∧ (∀ b cur, (c.FreeLargeMap timeout rt n).2 = PollResult.timeout b cur →
          ∃ j, b = rt.heapBefore ∧ cur = rt.heapAt j ∧ cur ≤ b
            ∧ rt.clockAt j + rt.lag j > rt.start + timeout
            ∧ ∀ l, l < j →
              rt.heapAt l ≤ rt.heapBefore ∧ rt.clockAt l + rt.lag l ≤ rt.start + timeout)
      ∧ n ≤ (timeout / 50000000).toNat + 2 := by
  have hret := pollLoop_returns rt (rt.start + timeout) ((timeout / 50000000).toNat + 1) 0
    rt.start (by push_cast; omega)
  have hres := pollLoop_result rt (rt.start + timeout) ((timeout / 50000000).toNat + 1 + 1) 0
  refine ⟨(timeout / 50000000).toNat + 1 + 1, hret, fun fuel hfuel => ?_, fun h => ?_,
    fun b cur h => ?_, le_rfl⟩
  · obtain ⟨k, rfl⟩ := Nat.exists_eq_add_of_le hfuel
    unfold Cache.FreeLargeMap
    rw [pollLoop_mono rt _ _ 0 rt.start hret k]
  · obtain ⟨j, hj, hbefore⟩ := hres.1 h
    exact ⟨j, hj, fun l hl => hbefore l (Nat.zero_le l) hl⟩
  · obtain ⟨j, hb, hcur, hle, hclock, hbefore⟩ := hres.2 b cur h
    exact ⟨j, hb, hcur, hle, hclock, fun l hl => hbefore l (Nat.zero_le l) hl⟩

/-! ## A released cache -/

/-- One call on a cache whose map is `nil`: when it returns, the cache is as it
was, and it returns unless it is a `Set` of a valid pattern. -/
theorem step_of_nil (c : Cache) (op : Op) (hm : c.data = none) :
    (∀ c' r, c.step op = Outcome.returned (c', r) → c' = c)
    ∧ ((∀ s, op = Op.set s → ¬ ValidPattern s) → ∃ r, c.step op = Outcome.returned (c, r)) := by
  have hclear : c.Clear = c := by
    cases c
    simp only at hm
    subst hm
    rfl
  cases op with
  | set s =>
    cases he : (c.Encode s).2 with
    | some e =>
      simp only [Cache.step, set_of_encode_error c he]
      exact ⟨fun c' r h => by cases h; rfl, fun _ => ⟨_, rfl⟩⟩
    | none =>
      simp only [Cache.step, set_of_encode_ok_nil c he hm]
      refine ⟨fun c' r h => (by cases h), fun h => ?_⟩
      exact absurd (validPattern_of_encode_ok c he) (h s rfl)
  | query s =>
    simp only [Cache.step]
    exact ⟨fun c' r h => by cases h; rfl, fun _ => ⟨_, rfl⟩⟩
  | clear =>
    simp only [Cache.step, hclear]
    exact ⟨fun c' r h => by cases h; rfl, fun _ => ⟨_, rfl⟩⟩

/-- No sequence of `Set`, `Exists` and `Clear` calls allocates a `nil` map: when
the sequence returns, the cache is as it was, and it returns when none of its
`Set` calls has a valid pattern. -/
theorem run_of_nil : ∀ (ops : List Op) (c : Cache), c.data = none →
    (∀ c' rs, c.run ops = Outcome.returned (c', rs) → c' = c)
    ∧ ((∀ s, Op.set s ∈ ops → ¬ ValidPattern s) → ∃ rs, c.run ops = Outcome.returned (c, rs))
  | [], c, _ => by
    refine ⟨fun c' rs h => ?_, fun _ => ⟨[], rfl⟩⟩
    simp only [Cache.run, Outcome.returned.injEq, Prod.mk.injEq] at h
    exact h.1.symm
  | op :: ops, c, hm => by
    have hstep := step_of_nil c op hm
    have ih := run_of_nil ops c hm
    constructor
    · intro c' rs h
      rw [Cache.run] at h
      cases hs : c.step op with
      | panicked msg => rw [hs] at h; cases h
      | returned a =>
        obtain ⟨c1, r⟩ := a
        have hc1 := hstep.1 c1 r hs
        subst hc1
        rw [hs] at h
        cases hr : c1.run ops with
        | panicked msg => simp only [hr] at h; cases h
        | returned b =>
          obtain ⟨c2, rs2⟩ := b
          simp only [hr, Outcome.returned.injEq, Prod.mk.injEq] at h
          rw [← h.1]
          exact ih.1 c2 rs2 hr
    · intro hall
      obtain ⟨r, hr⟩ := hstep.2 (fun s hs => hall s (by rw [hs]; exact List.mem_cons_self _ _))
      obtain ⟨rs, hrs⟩ := ih.2 (fun s hs => hall s (List.mem_cons_of_mem _ hs))
      exact ⟨r :: rs, by rw [Cache.run, hr]; simp only [hrs]⟩

/-- C4, amended. For every cache state and every valid pattern `p`: after `Free()`
and after `FreeLargeMap` (whatever its outcome) the map is `nil` and `Set p` does not
re-allocate it, the call ends in the panic of a write to a `nil` map. The map
stays `nil` through any `Exists`, `Clear` and failing `Set` calls that follow the
release (such a sequence returns and leaves the released cache as it was), so
`Set p` still panics after them. In every cache state `Set p` returns exactly when
the map is allocated, and then it returns a nil error and a following `Exists p`
is `(true, nil)`; the map is allocated in every state reached from `NewCache` by
`Set`, `Exists` and `Clear` calls. -/
theorem set_usable_iff_allocated (c : Cache) (p : GoString) (hp : ValidPattern p)
    (timeout : Int) (rt : Runtime) (fuel : Nat) (ops : List Op) (capacity : Int) :
    (c.Free).Set p = Outcome.panicked "assignment to entry in nil map"
    ∧ (c.FreeLargeMap timeout rt fuel).1.Set p
        = Outcome.panicked "assignment to entry in nil map"
    ∧ (∀ c' rs, (c.Free).run ops = Outcome.returned (c', rs) →
        c'.data = none ∧ c'.Set p = Outcome.panicked "assignment to entry in nil map")
    ∧ (∀ c' rs, (c.FreeLargeMap timeout rt fuel).1.run ops = Outcome.returned (c', rs) →
        c'.data = none ∧ c'.Set p = Outcome.panicked "assignment to entry in nil map")
    ∧ ((∀ s, Op.set s ∈ ops → ¬ ValidPattern s) →
        ∃ rs, (c.Free).run ops = Outcome.returned (c.Free, rs))
    ∧ ((∃ c' e, c.Set p = Outcome.returned (c', e)) ↔ c.data ≠ none)
    ∧ (c.data ≠ none →
        ∃ c', c.Set p = Outcome.returned (c', none) ∧ c'.Exists p = (true, none))
    ∧ ∃ c' rs, (NewCache capacity).run ops = Outcome.returned (c', rs) ∧ c'.data ≠ none := by
  have hnil := run_of_nil ops c.Free rfl
  have hstay : ∀ c' rs, (c.Free).run ops = Outcome.returned (c', rs) →
      c'.data = none ∧ c'.Set p = Outcome.panicked "assignment to entry in nil map" := by
    intro c' rs h
    rw [hnil.1 c' rs h]
    exact ⟨rfl, set_of_nil _ hp rfl⟩
  refine ⟨set_of_nil _ hp rfl, set_of_nil _ hp rfl, hstay, hstay, hnil.2, ⟨?_, ?_⟩, ?_, ?_⟩
  · rintro ⟨c', e, h⟩ hn
    rw [set_of_nil c hp hn] at h
    cases h
  · intro hne
    cases hm : c.data with
    | none => exact absurd hm hne
    | some m => exact ⟨_, _, set_of_allocated c hp hm⟩
  · intro hne
    cases hm : c.data with
    | none => exact absurd hm hne
    | some m =>
      refine ⟨_, set_of_allocated c hp hm, ?_⟩
      rw [exists_of_allocated _ hp rfl]
      simp
  · obtain ⟨m', rs, hrun, _⟩ := run_of_allocated ops (NewCache capacity) ∅ rfl
    exact ⟨_, rs, hrun, by simp⟩

/-- Witness of C4, amended, on the cache that holds "1-3-56" and the pattern
"123456": before the release `Set` returns; after `Free()`, and after `Free()`
followed by `Clear()`, `Exists("123456")` and the failing `Set("12345")`, it
panics. -/
theorem set_usable_iff_allocated_witness :
    ValidPattern pat123456
    ∧ (∀ s, Op.set s ∈ [Op.clear, Op.query pat123456, Op.set pat12345] → ¬ ValidPattern s)
    ∧ (⟨some {312725}, 8⟩ : Cache).data ≠ none
    ∧ (((⟨some {312725}, 8⟩ : Cache).Free).Set pat123456
        = Outcome.panicked "assignment to entry in nil map")
    ∧ (∃ rs, ((⟨some {312725}, 8⟩ : Cache).Free).run
          [Op.clear, Op.query pat123456, Op.set pat12345]
        = Outcome.returned ((⟨some {312725}, 8⟩ : Cache).Free, rs))
    ∧ ((⟨some {312725}, 8⟩ : Cache).Free.Clear).Set pat123456
        = Outcome.panicked "assignment to entry in nil map"
    ∧ ∃ c', (⟨some {312725}, 8⟩ : Cache).Set pat123456 = Outcome.returned (c', none)
        ∧ c'.Exists pat123456 = (true, none) :=
  have hfail : ∀ s, Op.set s ∈ [Op.clear, Op.query pat123456, Op.set pat12345] →
      ¬ ValidPattern s := by
    intro s hs
    simp at hs
    rw [hs]
    decide
  ⟨by decide, hfail, by decide,
    (set_usable_iff_allocated ⟨some {312725}, 8⟩ pat123456 (by decide) 0
      ⟨0, 0, fun _ => 0, fun _ => 0⟩ 0 [Op.clear, Op.query pat123456, Op.set pat12345] 0).1,
    (set_usable_iff_allocated ⟨some {312725}, 8⟩ pat123456 (by decide) 0
      ⟨0, 0, fun _ => 0, fun _ => 0⟩ 0 [Op.clear, Op.query pat123456, Op.set pat12345]
      0).2.2.2.2.1 hfail,
    ((set_usable_iff_allocated ⟨some {312725}, 8⟩ pat123456 (by decide) 0
      ⟨0, 0, fun _ => 0, fun _ => 0⟩ 0 [Op.clear] 0).2.2.1
      ((⟨some {312725}, 8⟩ : Cache).Free.Clear) [Reply.clear] (by decide)).2,
    (set_usable_iff_allocated ⟨some {312725}, 8⟩ pat123456 (by decide) 0
      ⟨0, 0, fun _ => 0, fun _ => 0⟩ 0 [Op.clear, Op.query pat123456, Op.set pat12345]
      0).2.2.2.2.2.2.1 (by decide)⟩

/-! ## Termination of `FreeLargeMap` and the lock -/

/-- Counterexample to C18 as stated: on `NewCache(0)` with a free lock, `Free()`
returns, `Set("123456")` then panics on the `nil` map and leaves the write lock
held, and in that cache state `FreeLargeMap` with a timeout of 5 s waits for the
lock for ever: no number of iterations makes it return. -/
theorem freeLargeMap_blocks_example :
    Guarded.Free ⟨NewCache 0, false⟩ = Ending.returned () ⟨(NewCache 0).Free, false⟩
    ∧ Guarded.Set ⟨(NewCache 0).Free, false⟩ pat123456
        = Ending.panicked "assignment to entry in nil map" ⟨(NewCache 0).Free, true⟩
    ∧ Guarded.FreeLargeMap ⟨(NewCache 0).Free, true⟩ 5000000000
        ⟨0, 0, fun _ => 0, fun _ => 0⟩ 200 = Ending.blocked
    ∧ ¬ ∃ fuel r g, Guarded.FreeLargeMap ⟨(NewCache 0).Free, true⟩ 5000000000
        ⟨0, 0, fun _ => 0, fun _ => 0⟩ fuel = Ending.returned r g := by
  refine ⟨by decide, by decide, by decide, ?_⟩
  rintro ⟨fuel, r, g, h⟩
  simp [Guarded.FreeLargeMap] at h

/-- C18, amended. For every timeout and every cache state whose lock is not held,
`FreeLargeMap` terminates: within `timeout / 50 ms + 2` iterations of the loop it
returns a result, which more iterations do not change, and it leaves a `nil` map
and a free lock. The result is the nil return only after a `HeapReleased` reading
strictly greater than the baseline has been observed, and otherwise the timeout
error, returned at an iteration whose clock reading has passed `start + timeout`
and whose `HeapReleased` reading is not above the baseline; in every earlier
iteration neither was the case. In a cache state whose lock is held,
`FreeLargeMap` waits at `c.mu.Lock()` and never returns; the lock is left held by
a `Set` of a valid pattern that panics on the `nil` map of a released cache. -/
theorem freeLargeMap_terminates (g : Guarded) (timeout : Int) (rt : Runtime) :
    (g.held = false →
      ∃ n r, n ≤ (timeout / 50000000).toNat + 2 ∧ r ≠ PollResult.polling
        ∧ (∀ fuel, n ≤ fuel →
            g.FreeLargeMap timeout rt fuel = Ending.returned r ⟨g.cache.Free, false⟩)
        ∧ (r = PollResult.released →
            ∃ j, rt.heapAt j > rt.heapBefore ∧ ∀ l, l < j →
              rt.heapAt l ≤ rt.heapBefore ∧ rt.clockAt l + rt.lag l ≤ rt.start + timeout)
        ∧ (∀ b cur, r = PollResult.timeout b cur →
            ∃ j, b = rt.heapBefore ∧ cur = rt.heapAt j ∧ cur ≤ b
              ∧ rt.clockAt j + rt.lag j > rt.start + timeout
              ∧ ∀ l, l < j →
                rt.heapAt l ≤ rt.heapBefore ∧ rt.clockAt l + rt.lag l ≤ rt.start + timeout))
    ∧ (g.held = true → ∀ fuel, g.FreeLargeMap timeout rt fuel = Ending.blocked)
    ∧ (∀ p, ValidPattern p → g.held = false → g.cache.data = none →
        g.Set p = Ending.panicked "assignment to entry in nil map" ⟨g.cache, true⟩) := by
  refine ⟨fun hfree => ?_, fun hheld fuel => ?_, fun p hp hfree hnil => ?_⟩
  · obtain ⟨n, hne, hmono, hrel, htime, hn⟩ := freeLargeMap_body_returns g.cache timeout rt
    refine ⟨n, (g.cache.FreeLargeMap timeout rt n).2, hn, hne, fun fuel hfuel => ?_, hrel,
      htime⟩
    have h := hmono fuel hfuel
    unfold Guarded.FreeLargeMap
    rw [hfree]
    simp only [Bool.false_eq_true, if_false]
    rw [← h]
    rfl
  · unfold Guarded.FreeLargeMap
    rw [hheld]
    rfl
  · unfold Guarded.Set
    rw [encode_eq_foldKey _ hp, hfree]
    simp only [Bool.false_eq_true, if_false, hnil]

/-- Witness of C18, amended: on a released cache with a free lock `FreeLargeMap`
with a timeout of 120 ms returns within 4 iterations, here the timeout error at
the fourth reading; after the `Set("123456")` that panics, the lock is held and the
same call waits for ever. -/
theorem freeLargeMap_terminates_witness :
    ValidPattern pat123456
    ∧ (∃ n r, n ≤ 4 ∧ r ≠ PollResult.polling
        ∧ ∀ fuel, n ≤ fuel →
          Guarded.FreeLargeMap ⟨(NewCache 0).Free, false⟩ 120000000
            ⟨7, 0, fun _ => 7, fun _ => 1⟩ fuel
            = Ending.returned r ⟨(NewCache 0).Free, false⟩)
    ∧ Guarded.FreeLargeMap ⟨(NewCache 0).Free, false⟩ 120000000
        ⟨7, 0, fun _ => 7, fun _ => 1⟩ 4
        = Ending.returned (PollResult.timeout 7 7) ⟨(NewCache 0).Free, false⟩
    ∧ Guarded.Set ⟨(NewCache 0).Free, false⟩ pat123456
        = Ending.panicked "assignment to entry in nil map" ⟨(NewCache 0).Free, true⟩
    ∧ ∀ fuel, Guarded.FreeLargeMap ⟨(NewCache 0).Free, true⟩ 120000000
        ⟨7, 0, fun _ => 7, fun _ => 1⟩ fuel = Ending.blocked :=
  ⟨by decide,
    (fun ⟨n, r, hn, hr, hall, _⟩ => ⟨n, r, hn, hr, hall⟩)
      ((freeLargeMap_terminates ⟨(NewCache 0).Free, false⟩ 120000000
        ⟨7, 0, fun _ => 7, fun _ => 1⟩).1 rfl),
    by decide,
    (freeLargeMap_terminates ⟨(NewCache 0).Free, false⟩ 120000000
      ⟨7, 0, fun _ => 7, fun _ => 1⟩).2.2 pat123456 (by decide) rfl rfl,
    (freeLargeMap_terminates ⟨(NewCache 0).Free, true⟩ 120000000
      ⟨7, 0, fun _ => 7, fun _ => 1⟩).2.1 rfl⟩

end NegCache
